import Mathlib

/-!
Verification of the `pipebuf_rustls` protocol adapters.

The repository wraps a TLS session engine between two duplex byte pipes:

* `src/client.rs`  — `TlsClient::process`, stream-style initiator (gated loop);
* `src/server.rs`  — `TlsServer::process`, stream-style acceptor (gated loop);
* `src/lib.rs`     — an older `TlsServer::process` without the handshake gate
  and without the external-EOF propagation step;
* `src/unbuf.rs`   — `process!`, the explicit-state (rustls-unbuffered) pump.

The pipe ends (`pipebuf` crate) and the TLS engine (`rustls`) are external
capabilities; they are modelled here from the interface description in the
spec (§6): a pipe buffer is a list of unread bytes, a running count of
consumed bytes, and a state in {Open, Push, Closing, Closed, Aborting,
Aborted}.  The engine is an opaque core together with exactly the flags the
adapter reads (`is_handshaking`, `wants_read`, pending outgoing ciphertext
for `wants_write`/`write_tls`), driven by an oracle of transition functions.
-/

/-- Pipe buffer state (pipebuf `PBufState`): `Closing`/`Aborting` are a
pending graceful/abrupt end-of-stream, `Closed`/`Aborted` a consumed one. -/
inductive PBufState where
  | Open
  | Push
  | Closing
  | Closed
  | Aborting
  | Aborted
deriving DecidableEq, Repr

/-- One pipe buffer: unread bytes, total bytes consumed so far, and state.
Modelled from the spec §6 description of the duplex pipe-end capability. -/
structure PBuf where
  data : List Nat
  consumed : Nat
  state : PBufState
deriving DecidableEq, Repr

namespace PBuf

/-- `is_empty()`: no unread bytes. -/
def isEmpty (b : PBuf) : Bool := b.data.isEmpty

/-- `has_pending_eof()`: an end-of-stream was requested but not yet consumed. -/
def hasPendingEof (b : PBuf) : Bool :=
  match b.state with
  | .Closing | .Aborting => true
  | _ => false

/-- `is_aborted()`: the stream is in an abrupt-termination state. -/
def isAborted (b : PBuf) : Bool :=
  match b.state with
  | .Aborting | .Aborted => true
  | _ => false

/-- `is_done()`: the end-of-stream has been fully consumed. -/
def isDone (b : PBuf) : Bool :=
  match b.state with
  | .Closed | .Aborted => true
  | _ => false

/-- `is_eof()` on a write end: a close or abort has been requested. -/
def isEof (b : PBuf) : Bool :=
  match b.state with
  | .Open | .Push => false
  | _ => true

/-- `consume(n)`: drop `n` unread bytes. -/
def consume (b : PBuf) (n : Nat) : PBuf :=
  { b with data := b.data.drop n, consumed := b.consumed + min n b.data.length }

/-- Consume all unread bytes. -/
def consumeAll (b : PBuf) : PBuf :=
  { b with data := [], consumed := b.consumed + b.data.length }

/-- `consume_eof()`: acknowledge a pending end-of-stream; returns whether one
was pending (spec §6). -/
def consumeEof (b : PBuf) : PBuf × Bool :=
  match b.state with
  | .Closing => ({ b with state := .Closed }, true)
  | .Aborting => ({ b with state := .Aborted }, true)
  | _ => (b, false)

/-- Append bytes to a write end (`space`/`commit`, or the pipebuf `Write`
implementation used by `write_tls` / `input_from`). -/
def append (b : PBuf) (xs : List Nat) : PBuf :=
  { b with data := b.data ++ xs }

/-- `close()`: request a graceful end-of-stream. -/
def close (b : PBuf) : PBuf :=
  match b.state with
  | .Open | .Push => { b with state := .Closing }
  | _ => b

/-- `abort()`: request an abrupt termination. -/
def abort (b : PBuf) : PBuf :=
  match b.state with
  | .Open | .Push | .Closing => { b with state := .Aborting }
  | _ => b

/-- `push()`: set a flush marker. -/
def push (b : PBuf) : PBuf :=
  match b.state with
  | .Open => { b with state := .Push }
  | _ => b

end PBuf

/-- One component of the `tripwire!` snapshot: byte-availability position
(consumed count and unread length) and end-of-stream status of one pipe end
(spec §4.3). -/
structure TripEnd where
  pos : Nat
  len : Nat
  state : PBufState
deriving DecidableEq, Repr

/-- Snapshot of one pipe end. -/
def PBuf.trip (b : PBuf) : TripEnd := ⟨b.consumed, b.data.length, b.state⟩

/-- The four pipe ends handed to `process`: `ext.rd`, `ext.wr`, `int.rd`,
`int.wr`. -/
structure Pipes where
  extRd : PBuf
  extWr : PBuf
  intRd : PBuf
  intWr : PBuf
deriving DecidableEq, Repr

/-- `tripwire!(ext.rd, ext.wr, int.rd, int.wr)`: the before/after snapshot. -/
def pSnap (p : Pipes) : TripEnd × TripEnd × TripEnd × TripEnd :=
  (p.extRd.trip, p.extWr.trip, p.intRd.trip, p.intWr.trip)

/-- The stream-style engine (`ClientConnection` / `ServerConnection`) as seen
through the capability surface the adapter uses: an opaque core, the
`is_handshaking` and `wants_read` flags, and the ciphertext queued for
`write_tls` (nonempty exactly when `wants_write`). -/
structure Eng (γ : Type) where
  core : γ
  hs : Bool
  wantsRead : Bool
  pendingOut : List Nat
deriving DecidableEq, Repr

/-- `wants_write()`: the engine has ciphertext queued. -/
def Eng.wantsWrite (e : Eng γ) : Bool := !e.pendingOut.isEmpty

/-- Outcome of reading decoded plaintext from the engine (`reader()` through
`input_from`): bytes, `WouldBlock`, `UnexpectedEof`, or another I/O error. -/
inductive PlainRead where
  | bytes (xs : List Nat)
  | wouldBlock
  | unexpectedEof
  | fatal (msg : String)

/-- Oracle for the opaque engine transitions.  `feedPlain` is `writer()` fed
by `output_to`; `closeNotify` is `send_close_notify`; `procPackets` is
`read_tls` followed by `process_new_packets`, returning the updated engine
and `plaintext_bytes_to_read`; `readPlain` is `reader()` read by
`input_from`. -/
structure Oracle (γ : Type) where
  feedPlain : Eng γ → List Nat → Eng γ
  closeNotify : Eng γ → Eng γ
  procPackets : Eng γ → List Nat → Except String (Eng γ × Nat)
  readPlain : Eng γ → Nat → Eng γ × PlainRead

/-- Loop state for the stream-style `process`: the four pipe ends plus the
engine. -/
structure St (γ : Type) where
  extRd : PBuf
  extWr : PBuf
  intRd : PBuf
  intWr : PBuf
  eng : Eng γ

/-- Actions of the priority loop, used as an execution trace: ciphertext
drain, plaintext feed, internal-EOF consumption (abrupt / graceful),
ciphertext feed + plaintext drain, external-EOF propagation. -/
inductive Act where
  | writeTls
  | feedPlain
  | intEofAbort
  | intEofClose
  | readTls
  | extEof
deriving DecidableEq, Repr

/-- Result of one loop iteration: loop exit, `continue` with the mutated
state and the action taken, or an error return carrying the state at the
point of failure (the pipes stay mutated on `Err`, as in the source). -/
inductive StepRes (γ : Type) where
  | done
  | cont (st : St γ) (a : Act)
  | fail (st : St γ) (msg : String)

/-- Guard of the ciphertext-drain step (`cc.wants_write() && !ext.wr.is_eof()`). -/
def wrGuard (st : St γ) : Bool := st.eng.wantsWrite && !st.extWr.isEof

/-- Guard of the plaintext feed.  `g` records whether the handshake gate is
present (`client.rs`/`server.rs`: yes; `lib.rs`: no). -/
def feedGuard (g : Bool) (st : St γ) : Bool :=
  (!g || !st.eng.hs) && !st.intRd.isEmpty

/-- Guard of the internal-EOF consumption (reached with `int.rd` empty,
succeeds when an EOF is pending). -/
def intEofGuard (g : Bool) (st : St γ) : Bool :=
  (!g || !st.eng.hs) && st.intRd.isEmpty && st.intRd.hasPendingEof

/-- Guard of the ciphertext feed (`cc.wants_read() && !ext.rd.is_empty()`). -/
def rdGuard (st : St γ) : Bool := st.eng.wantsRead && !st.extRd.isEmpty

/-- Guard of the external-EOF propagation step. -/
def extEofGuard (st : St γ) : Bool :=
  st.extRd.hasPendingEof &&
    (st.extRd.isAborted || st.extRd.isEmpty || st.intRd.isDone)

/-- One iteration of the priority loop of `TlsClient::process` /
`TlsServer::process`.  `g` is whether the handshake gate exists, `x` whether
the external-EOF propagation step exists (both true in
`client.rs`/`server.rs`, both false in `lib.rs`). -/
def step (o : Oracle γ) (g x : Bool) (st : St γ) : StepRes γ :=
  if wrGuard st then
    -- write_tls drains the engine's queued ciphertext into ext.wr, then
    -- `if int.rd.is_done() && !cc.wants_write() { ext.wr.close(); }`
    let e2 : Eng γ := { st.eng with pendingOut := [] }
    let w1 := st.extWr.append st.eng.pendingOut
    let w2 := if st.intRd.isDone && !e2.wantsWrite then w1.close else w1
    .cont { st with extWr := w2, eng := e2 } .writeTls
  else if feedGuard g st then
    -- int.rd.output_to(&mut cc.writer(), false)
    .cont { st with intRd := st.intRd.consumeAll,
                    eng := o.feedPlain st.eng st.intRd.data } .feedPlain
  else if intEofGuard g st then
    -- int.rd.consume_eof(): abort => ext.wr.abort(), else send_close_notify
    let r := st.intRd.consumeEof
    if r.1.isAborted then
      .cont { st with intRd := r.1, extWr := st.extWr.abort } .intEofAbort
    else
      .cont { st with intRd := r.1, eng := o.closeNotify st.eng } .intEofClose
  else if rdGuard st then
    -- cc.read_tls(&mut ext.rd) then cc.process_new_packets()
    match o.procPackets st.eng st.extRd.data with
    | .error msg => .fail { st with extRd := st.extRd.consumeAll } msg
    | .ok (e2, readLen) =>
      let r2 := st.extRd.consumeAll
      if !st.intWr.isEof && readLen != 0 then
        match o.readPlain e2 readLen with
        | (e3, .bytes xs) =>
            .cont { st with extRd := r2, eng := e3,
                            intWr := st.intWr.append xs } .readTls
        | (e3, .wouldBlock) =>
            .cont { st with extRd := r2, eng := e3 } .readTls
        | (e3, .unexpectedEof) =>
            .cont { st with extRd := r2, eng := e3,
                            intWr := st.intWr.abort } .readTls
        | (e3, .fatal msg) =>
            .fail { st with extRd := r2, eng := e3 } msg
      else
        .cont { st with extRd := r2, eng := e2 } .readTls
  else if x && extEofGuard st then
    -- ext.rd.consume_eof(); close or abort int.wr if not already finished
    let r := st.extRd.consumeEof
    let w : PBuf :=
      if !st.intWr.isEof then
        (if r.1.isAborted then st.intWr.abort else st.intWr.close)
      else st.intWr
    .cont { st with extRd := r.1, intWr := w } .extEof
  else .done

/-- Pending-EOF contribution to the loop measure. -/
def PBuf.pend (b : PBuf) : Nat := if b.hasPendingEof then 1 else 0

/-- Termination measure of the priority loop: every `continue` strictly
decreases it. -/
def M (st : St γ) : Nat :=
  2 * (st.intRd.data.length + st.extRd.data.length +
       st.intRd.pend + st.extRd.pend) +
    (if st.eng.pendingOut.isEmpty then 0 else 1)

/-- Fueled runner of the priority loop, returning the final state, the error
(if any) and the trace of actions taken; `none` when fuel runs out. -/
def runIter (o : Oracle γ) (g x : Bool) :
    Nat → St γ → Option (St γ × Option String × List Act)
  | 0, _ => none
  | n + 1, st =>
    match step o g x st with
    | .done => some (st, none, [])
    | .fail st2 msg => some (st2, some msg, [])
    | .cont st2 a =>
      match runIter o g x n st2 with
      | none => none
      | some (st3, err, tr) => some (st3, err, a :: tr)

/-- The loop of `process`, run with (provably sufficient) fuel `M st + 1`. -/
def run (o : Oracle γ) (g x : Bool) (st : St γ) :
    St γ × Option String × List Act :=
  (runIter o g x (M st + 1) st).getD (st, some "fuel exhausted", [])

/-- Error type of the adapter (`TlsError` carries a diagnostic string). -/
abbrev TlsError := String

/-- `forward(other_end)`: pass-through of bytes and end-of-stream from a read
end into a write end (pipebuf capability, modelled from spec §6/§8). -/
def forward (rd wr : PBuf) : PBuf × PBuf :=
  if wr.isEof then (rd, wr)
  else
    let wr1 := wr.append rd.data
    let rd1 := rd.consumeAll
    let r := rd1.consumeEof
    let wr2 := if r.2 then (if r.1.isAborted then wr1.abort else wr1.close)
               else wr1
    (r.1, wr2)

/-- Pass-through mode: `int.rd.forward(ext.wr); ext.rd.forward(int.wr)`. -/
def passProcess (p : Pipes) : Pipes :=
  let a := forward p.intRd p.extWr
  let b := forward p.extRd p.intWr
  { extRd := b.1, extWr := a.2, intRd := a.1, intWr := b.2 }

/-- Build a loop state from the pipes and an engine. -/
def mkSt (p : Pipes) (e : Eng γ) : St γ :=
  { extRd := p.extRd, extWr := p.extWr, intRd := p.intRd, intWr := p.intWr,
    eng := e }

/-- Extract the pipes from a loop state. -/
def St.pipes (st : St γ) : Pipes :=
  { extRd := st.extRd, extWr := st.extWr, intRd := st.intRd, intWr := st.intWr }

/-- The stream-style `process` call: tripwire snapshot before and after, the
engine loop (or pass-through when no engine is configured), and the activity
result `Ok(after != before)`; on an engine error the mutated pipes are kept
and `Err` is returned. -/
def procWith (o : Oracle γ) (g x : Bool) (e? : Option (Eng γ)) (p : Pipes) :
    (Option (Eng γ) × Pipes) × Except TlsError Bool :=
  let before := pSnap p
  match e? with
  | some e =>
    let r := run o g x (mkSt p e)
    let p2 := r.1.pipes
    match r.2.1 with
    | some msg => ((some r.1.eng, p2), .error msg)
    | none => ((some r.1.eng, p2), .ok (decide (¬ pSnap p2 = before)))
  | none =>
    let p2 := passProcess p
    ((none, p2), .ok (decide (¬ pSnap p2 = before)))

/-- `TlsClient::process` of `src/client.rs`: gated loop with external-EOF
propagation. -/
def TlsClient.process (o : Oracle γ) : Option (Eng γ) → Pipes →
    (Option (Eng γ) × Pipes) × Except TlsError Bool :=
  procWith o true true

/-- `TlsServer::process` of `src/server.rs`: same loop as the client (the
two files differ only in the wrapped rustls connection type). -/
def TlsServer.process (o : Oracle γ) : Option (Eng γ) → Pipes →
    (Option (Eng γ) × Pipes) × Except TlsError Bool :=
  procWith o true true

/-- `TlsServer::process` of `src/lib.rs`: the variant WITHOUT the handshake
gate and WITHOUT the external-EOF propagation step. -/
def TlsServerLib.process (o : Oracle γ) : Option (Eng γ) → Pipes →
    (Option (Eng γ) × Pipes) × Except TlsError Bool :=
  procWith o false false


/-! ### The explicit-state (`unbuf.rs`) adapter -/

/-- The `rustls::unbuffered::ConnectionState` as consumed by `process!`,
with the payloads the handler extracts.  `readTraffic`/`readEarly` carry the
already-iterated records `(payload, discard)` and an optional fetch error;
`encodeTls` carries the outcome of `encode` into the scratch space;
`transmit` carries the engine core after `ttd.done()`; `writeTraffic`
carries the `encrypt` and `queue_close_notify` operations. -/
inductive UTag (γ : Type) where
  | readTraffic (recs : List (List Nat × Nat)) (rerr : Option String)
  | readEarly (recs : List (List Nat × Nat)) (rerr : Option String)
  | closed
  | encodeTls (res : Except String (List Nat))
  | transmit (core2 : γ)
  | blocked
  | writeTraffic (encrypt : List Nat → Except String (γ × List Nat))
                 (queueClose : γ → Except String (γ × List Nat))
  | unexpected (desc : String)

/-- `process_tls_records`: given the engine core and the unread external
bytes, the new core, the `discard` count and the reported state (or a
protocol error). -/
structure UOracle (γ : Type) where
  ptr : γ → List Nat → γ × Nat × Except String (UTag γ)

/-- Loop state of `process!`: the four pipe ends plus the engine core. -/
structure USt (γ : Type) where
  extRd : PBuf
  extWr : PBuf
  intRd : PBuf
  intWr : PBuf
  core : γ

def mkUSt (p : Pipes) (c : γ) : USt γ :=
  { extRd := p.extRd, extWr := p.extWr, intRd := p.intRd, intWr := p.intWr,
    core := c }

def USt.pipes (st : USt γ) : Pipes :=
  { extRd := st.extRd, extWr := st.extWr, intRd := st.intRd,
    intWr := st.intWr }

/-- Result of one `process!` loop iteration: `brk` (the `break` paths, with
the trailing `ext.rd.consume(discard)` already applied), `cont` with the
carried-over discard count, or an error return. -/
inductive UStepRes (γ : Type) where
  | brk (st : USt γ)
  | cont (st : USt γ) (d : Nat)
  | fail (st : USt γ) (msg : String)

/-- Body of one iteration of the `process!` loop of `src/unbuf.rs` (lines
55-161), after the top-of-loop `consume(discard)`.  `FIXUP_CLOSE` is `true`
in the source.  In-place decryption by `process_tls_records` of the
still-unread bytes is not modelled: the bytes it decrypts in place are
exactly the `discard` bytes that get consumed. -/
def uBody (o : UOracle γ) (isServer : Bool) (st : USt γ) : UStepRes γ :=
  -- if $ext.rd.data().len() == 0 && $ext.rd.consume_eof() { ... break; }
  let ce := st.extRd.consumeEof
  if st.extRd.isEmpty && ce.2 then
    let iw := if !st.intWr.isEof then st.intWr.close else st.intWr
    let rce := st.intRd.consumeEof
    if rce.2 then
      let ir := rce.1.consumeAll
      let ew := if ir.isAborted then st.extWr.abort else st.extWr.close
      .brk { st with extRd := ce.1, intWr := iw, intRd := ir, extWr := ew }
    else
      .brk { st with extRd := ce.1, intWr := iw }
  else
    match o.ptr st.core st.extRd.data with
    | (c2, d2, .error msg) => .fail { st with core := c2 } msg
    | (c2, d2, .ok tag) =>
      match tag with
      | .readTraffic recs rerr =>
        let iw := st.intWr.append (recs.map Prod.fst).flatten
        let dsum := (recs.map Prod.snd).sum
        (match rerr with
         | some msg => .fail { st with core := c2, intWr := iw } msg
         | none => .cont { st with core := c2, intWr := iw } (d2 + dsum))
      | .readEarly recs rerr =>
        if isServer then
          let iw := st.intWr.append (recs.map Prod.fst).flatten
          let dsum := (recs.map Prod.snd).sum
          (match rerr with
           | some msg => .fail { st with core := c2, intWr := iw } msg
           | none => .cont { st with core := c2, intWr := iw } (d2 + dsum))
        else
          .fail { st with core := c2 } "Not expecting early data on client"
      | .closed =>
        let iw := if !st.intWr.isEof then st.intWr.close else st.intWr
        let rce := st.intRd.consumeEof
        if rce.2 then
          let ir := rce.1.consumeAll
          let ew := if ir.isAborted then st.extWr.abort else st.extWr.close
          .brk { st with core := c2, intWr := iw, intRd := ir, extWr := ew,
                         extRd := st.extRd.consume d2 }
        else
          .brk { st with core := c2, intWr := iw,
                         extRd := st.extRd.consume d2 }
      | .encodeTls res =>
        (match res with
         | .error msg => .fail { st with core := c2 } msg
         | .ok bytes =>
           let ew := if !st.extWr.isEof then st.extWr.append bytes
                     else st.extWr
           .cont { st with core := c2, extWr := ew } d2)
      | .transmit c3 =>
        .cont { st with core := c3, extWr := st.extWr.push } d2
      | .blocked => .brk { st with core := c2, extRd := st.extRd.consume d2 }
      | .writeTraffic enc qc =>
        let wrOpen := !st.extWr.isEof
        let len := st.intRd.data.length
        let closing := st.intRd.state == PBufState.Closing
        if (len == 0) && !closing then
          .brk { st with core := c2, extRd := st.extRd.consume d2 }
        else
          (match (if (len != 0) && wrOpen then
                    (enc st.intRd.data).map
                      (fun r => (r.1, st.extWr.append r.2,
                                 st.intRd.consumeAll))
                  else .ok (c2, st.extWr, st.intRd)) with
           | .error msg => .fail { st with core := c2 } msg
           | .ok (c3, ew, ir) =>
             if closing then
               let ir2 := (ir.consumeEof).1
               (match qc c3 with
                | .error msg =>
                  .fail { st with core := c3, extWr := ew, intRd := ir2 } msg
                | .ok (c4, cn) =>
                  let ew2 := if wrOpen then ((ew.append cn).close) else ew
                  .cont { st with core := c4, extWr := ew2, intRd := ir2 } d2)
             else
               .cont { st with core := c3, extWr := ew, intRd := ir } d2)
      | .unexpected desc =>
        .fail { st with core := c2 } ("Unexpected TLS state: " ++ desc)

/-- One iteration of the `process!` loop, starting at the top of the loop
with the accumulated `discard` count `d`: `$ext.rd.consume(discard)` and
then the body. -/
def uStep (o : UOracle γ) (isServer : Bool) (st0 : USt γ) (d : Nat) :
    UStepRes γ :=
  uBody o isServer { st0 with extRd := st0.extRd.consume d }

/-- Fueled runner of the `process!` loop.  Unlike the stream loop, no fuel
bound exists for every engine (see the divergence result below). -/
def uIter (o : UOracle γ) (isServer : Bool) :
    Nat → USt γ → Nat → Option (USt γ × Option String)
  | 0, _, _ => none
  | n + 1, st, d =>
    match uStep o isServer st d with
    | .brk st2 => some (st2, none)
    | .fail st2 msg => some (st2, some msg)
    | .cont st2 d2 => uIter o isServer n st2 d2

/-- The abort shortcut of `process!` (lines 37-48): discard everything on
both read ends, consume both EOFs, abort both unfinished write ends. -/
def uShortcut (p : Pipes) : Pipes :=
  let ir := ((p.intRd.consumeAll).consumeEof).1
  let er := ((p.extRd.consumeAll).consumeEof).1
  let ew := if !p.extWr.isEof then p.extWr.abort else p.extWr
  let iw := if !p.intWr.isEof then p.intWr.abort else p.intWr
  { extRd := er, extWr := ew, intRd := ir, intWr := iw }

/-- The explicit-state `process` call (`TlsServer::process` /
`TlsClient::process` of `src/unbuf.rs`): tripwire snapshots, the abort
shortcut, the engine loop (fueled) or pass-through.  `none` means the given
fuel did not suffice. -/
def uProcess (o : UOracle γ) (isServer : Bool) (c? : Option γ) (p : Pipes)
    (fuel : Nat) : Option ((Option γ × Pipes) × Except TlsError Bool) :=
  let before := pSnap p
  match c? with
  | none =>
    let p2 := passProcess p
    some ((none, p2), .ok (decide (¬ pSnap p2 = before)))
  | some c =>
    if p.intRd.isAborted || p.extRd.isAborted then
      let p2 := uShortcut p
      some ((some c, p2), .ok (decide (¬ pSnap p2 = before)))
    else
      match uIter o isServer fuel (mkUSt p c) 0 with
      | none => none
      | some (st2, err) =>
        let p2 := USt.pipes st2
        (match err with
         | some msg => some ((some st2.core, p2), .error msg)
         | none => some ((some st2.core, p2), .ok (decide (¬ pSnap p2 = before))))

/-- `TlsServer::process` of `src/unbuf.rs` (accepts early data). -/
def UnbufTlsServer.process (o : UOracle γ) : Option γ → Pipes → Nat →
    Option ((Option γ × Pipes) × Except TlsError Bool) :=
  uProcess o true

/-- `TlsClient::process` of `src/unbuf.rs` (early data is an error). -/
def UnbufTlsClient.process (o : UOracle γ) : Option γ → Pipes → Nat →
    Option ((Option γ × Pipes) × Except TlsError Bool) :=
  uProcess o false

/-- Stability of the break-causing engine states: `process_tls_records`
reporting `BlockedHandshake`, `Closed` or `WriteTraffic` neither mutates the
engine core nor asks for a discard.  (The spec describes these as states in
which no further progress is possible this call.) -/
def UStable (o : UOracle γ) : Prop :=
  (∀ c d c2 d2, o.ptr c d = (c2, d2, .ok .blocked) → c2 = c ∧ d2 = 0) ∧
  (∀ c d c2 d2, o.ptr c d = (c2, d2, .ok .closed) → c2 = c ∧ d2 = 0) ∧
  (∀ c d c2 d2 enc qc, o.ptr c d = (c2, d2, .ok (.writeTraffic enc qc)) →
    c2 = c ∧ d2 = 0)

/-! ### Concrete engines and pipe states used as witnesses -/

/-- A pipe buffer with given unread bytes and state, nothing consumed yet. -/
def pbSt (xs : List Nat) (s : PBufState) : PBuf :=
  { data := xs, consumed := 0, state := s }

/-- A stream-engine test double whose core logs every plaintext feed. -/
def logOracle : Oracle (List (List Nat)) :=
  { feedPlain := fun e xs => { e with core := e.core ++ [xs] },
    closeNotify := fun e => e,
    procPackets := fun e _ => .ok (e, 0),
    readPlain := fun e _ => (e, .wouldBlock) }

/-- Engine state: handshaking, idle otherwise. -/
def c1eng : Eng (List (List Nat)) :=
  { core := [], hs := true, wantsRead := false, pendingOut := [] }

/-- Engine state: handshake complete, idle otherwise. -/
def c2eng : Eng (List (List Nat)) :=
  { core := [], hs := false, wantsRead := false, pendingOut := [] }

/-- Pipes: one unread plaintext byte on the internal read end. -/
def c1pipes : Pipes :=
  { extRd := pbSt [] .Open, extWr := pbSt [] .Open,
    intRd := pbSt [7] .Open, intWr := pbSt [] .Open }

/-- Pipes: the external read end is empty with a pending graceful EOF. -/
def c2pipes : Pipes :=
  { extRd := pbSt [] .Closing, extWr := pbSt [] .Open,
    intRd := pbSt [] .Open, intWr := pbSt [] .Open }

/-- Pipes: the internal read end is done, everything else open and empty. -/
def c7pipes : Pipes :=
  { extRd := pbSt [] .Open, extWr := pbSt [] .Open,
    intRd := pbSt [] .Closed, intWr := pbSt [] .Open }

/-- All four ends open and empty. -/
def emptyPipes : Pipes :=
  { extRd := pbSt [] .Open, extWr := pbSt [] .Open,
    intRd := pbSt [] .Open, intWr := pbSt [] .Open }

/-- An unbuffered engine that always reports `WriteTraffic` (the steady
state of an established rustls connection fed no input). -/
def divOracle : UOracle Unit :=
  { ptr := fun _ _ => ((), 0, .ok (.writeTraffic (fun _ => .error "unused")
      (fun _ => .error "unused"))) }

/-- Pipes on which `process!` diverges with `divOracle`: the external write
end is at EOF while the internal read end still holds an unread byte and is
not closing. -/
def c8pipes : Pipes :=
  { extRd := pbSt [] .Open, extWr := pbSt [] .Closing,
    intRd := pbSt [7] .Open, intWr := pbSt [] .Open }

/-- An unbuffered engine that always reports `BlockedHandshake`. -/
def blockedOracle : UOracle Unit :=
  { ptr := fun _ _ => ((), 0, .ok .blocked) }

/-! ### Numeric measures over snapshots, used by the proofs below -/

/-- Rank of a pipe state: all transitions the adapter can cause move the
rank strictly upward. -/
def rank : PBufState → Nat
  | .Open => 0
  | .Push => 1
  | .Closing => 2
  | .Aborting => 3
  | .Closed => 4
  | .Aborted => 5

/-- Numeric view of one pipe end's snapshot. -/
def bMeas (b : PBuf) : Nat :=
  b.consumed + (b.consumed + b.data.length) + rank b.state

/-- Numeric view of the four-end snapshot of the stream loop state. -/
def sMeas (st : St γ) : Nat :=
  bMeas st.extRd + bMeas st.extWr + bMeas st.intRd + bMeas st.intWr

/-- Numeric view of the four-end snapshot of the explicit-state loop state. -/
def uMeas (st : USt γ) : Nat :=
  bMeas st.extRd + bMeas st.extWr + bMeas st.intRd + bMeas st.intWr

/-- The state carried by an explicit-state loop iteration result. -/
def resSt : UStepRes γ → USt γ
  | .brk s => s
  | .cont s _ => s
  | .fail s _ => s

/-! ### Termination of the priority loop -/

theorem pend_le_one (b : PBuf) : b.pend ≤ 1 := by
  unfold PBuf.pend; split <;> omega

theorem pend_consumeAll (b : PBuf) : b.consumeAll.pend = b.pend := rfl

theorem length_consumeAll (b : PBuf) : b.consumeAll.data.length = 0 := rfl

theorem length_pos_of_not_isEmpty (b : PBuf) (h : b.isEmpty = false) :
    1 ≤ b.data.length := by
  unfold PBuf.isEmpty at h
  cases hd : b.data with
  | nil => rw [hd] at h; simp at h
  | cons y ys => simp [hd]

theorem state_of_pending (b : PBuf) (h : b.hasPendingEof = true) :
    b.state = PBufState.Closing ∨ b.state = PBufState.Aborting := by
  unfold PBuf.hasPendingEof at h
  cases h2 : b.state <;> rw [h2] at h <;> simp_all

theorem consumeEof_of_pending (b : PBuf) (h : b.hasPendingEof = true) :
    (b.consumeEof).1.pend = 0 ∧ (b.consumeEof).1.data.length = b.data.length := by
  rcases state_of_pending b h with h2 | h2 <;>
    simp [PBuf.consumeEof, h2, PBuf.pend, PBuf.hasPendingEof]

theorem wrGuard_po (st : St γ) (h : wrGuard st = true) :
    st.eng.pendingOut.isEmpty = false := by
  unfold wrGuard Eng.wantsWrite at h
  rw [Bool.and_eq_true] at h
  simpa using h.1

theorem feedGuard_len (g : Bool) (st : St γ) (h : feedGuard g st = true) :
    1 ≤ st.intRd.data.length := by
  unfold feedGuard at h
  rw [Bool.and_eq_true] at h
  exact length_pos_of_not_isEmpty _ (by simpa using h.2)

theorem intEofGuard_pending (g : Bool) (st : St γ) (h : intEofGuard g st = true) :
    st.intRd.hasPendingEof = true := by
  unfold intEofGuard at h
  rw [Bool.and_eq_true] at h
  exact h.2

theorem rdGuard_len (st : St γ) (h : rdGuard st = true) :
    1 ≤ st.extRd.data.length := by
  unfold rdGuard at h
  rw [Bool.and_eq_true] at h
  exact length_pos_of_not_isEmpty _ (by simpa using h.2)

theorem extEofGuard_pending (st : St γ) (h : extEofGuard st = true) :
    st.extRd.hasPendingEof = true := by
  unfold extEofGuard at h
  rw [Bool.and_eq_true] at h
  exact h.1

theorem eTerm_le (l : List Nat) : (if l.isEmpty then 0 else 1) ≤ 1 := by
  split <;> omega

theorem M_write (st : St γ) (hpo : st.eng.pendingOut.isEmpty = false)
    (w2 : PBuf) :
    M { st with extWr := w2, eng := { st.eng with pendingOut := [] } }
      < M st := by
  simp only [M, hpo]
  simp

theorem M_feed (st : St γ) (hlen : 1 ≤ st.intRd.data.length) (e3 : Eng γ) :
    M { st with intRd := st.intRd.consumeAll, eng := e3 } < M st := by
  simp only [M, pend_consumeAll, length_consumeAll]
  have h2 := eTerm_le e3.pendingOut
  have h3 : (0:Nat) ≤ if st.eng.pendingOut.isEmpty then 0 else 1 := by omega
  omega

theorem M_intEof (st : St γ) (hpend : st.intRd.hasPendingEof = true)
    (w2 : PBuf) (e3 : Eng γ) :
    M { st with intRd := (st.intRd.consumeEof).1, extWr := w2, eng := e3 }
      < M st := by
  obtain ⟨h1, h2⟩ := consumeEof_of_pending _ hpend
  have hpd : st.intRd.pend = 1 := by simp [PBuf.pend, hpend]
  simp only [M, h1, h2, hpd]
  have h4 := eTerm_le e3.pendingOut
  have h5 : (0:Nat) ≤ if st.eng.pendingOut.isEmpty then 0 else 1 := by omega
  omega

theorem M_read (st : St γ) (hlen : 1 ≤ st.extRd.data.length)
    (w2 : PBuf) (e3 : Eng γ) :
    M { st with extRd := st.extRd.consumeAll, intWr := w2, eng := e3 }
      < M st := by
  simp only [M, pend_consumeAll, length_consumeAll]
  have h2 := eTerm_le e3.pendingOut
  have h3 : (0:Nat) ≤ if st.eng.pendingOut.isEmpty then 0 else 1 := by omega
  omega

theorem M_extEof (st : St γ) (hpend : st.extRd.hasPendingEof = true)
    (w2 : PBuf) :
    M { st with extRd := (st.extRd.consumeEof).1, intWr := w2 } < M st := by
  obtain ⟨h1, h2⟩ := consumeEof_of_pending _ hpend
  have hpd : st.extRd.pend = 1 := by simp [PBuf.pend, hpend]
  simp only [M, h1, h2, hpd]
  omega

/-- Every `continue` of the priority loop strictly decreases the measure. -/
theorem step_cont_M (o : Oracle γ) (g x : Bool) (st st2 : St γ) (a : Act)
    (h : step o g x st = .cont st2 a) : M st2 < M st := by
  unfold step at h
  by_cases hw : wrGuard st = true
  · rw [if_pos hw] at h
    simp only [StepRes.cont.injEq] at h
    obtain ⟨h1, _⟩ := h
    subst h1
    exact M_write st (wrGuard_po st hw) _
  · rw [if_neg hw] at h
    by_cases hf : feedGuard g st = true
    · rw [if_pos hf] at h
      simp only [StepRes.cont.injEq] at h
      obtain ⟨h1, _⟩ := h
      subst h1
      exact M_feed st (feedGuard_len g st hf) _
    · rw [if_neg hf] at h
      by_cases he : intEofGuard g st = true
      · rw [if_pos he] at h
        have hpend := intEofGuard_pending g st he
        by_cases ha : (st.intRd.consumeEof).1.isAborted = true
        · rw [if_pos ha] at h
          simp only [StepRes.cont.injEq] at h
          obtain ⟨h1, _⟩ := h
          subst h1
          exact M_intEof st hpend _ _
        · rw [if_neg ha] at h
          simp only [StepRes.cont.injEq] at h
          obtain ⟨h1, _⟩ := h
          subst h1
          exact M_intEof st hpend st.extWr _
      · rw [if_neg he] at h
        by_cases hr : rdGuard st = true
        · rw [if_pos hr] at h
          have hlen := rdGuard_len st hr
          cases hpp : o.procPackets st.eng st.extRd.data with
          | error msg => rw [hpp] at h; simp at h
          | ok pr =>
            rw [hpp] at h
            obtain ⟨e2, readLen⟩ := pr
            simp only at h
            by_cases hif : (!st.intWr.isEof && readLen != 0) = true
            · rw [if_pos hif] at h
              cases hrp : o.readPlain e2 readLen with
              | mk e3 pr2 =>
                rw [hrp] at h
                cases pr2 with
                | bytes xs =>
                  simp only [StepRes.cont.injEq] at h
                  obtain ⟨h1, _⟩ := h
                  subst h1
                  exact M_read st hlen _ _
                | wouldBlock =>
                  simp only [StepRes.cont.injEq] at h
                  obtain ⟨h1, _⟩ := h
                  subst h1
                  exact M_read st hlen st.intWr _
                | unexpectedEof =>
                  simp only [StepRes.cont.injEq] at h
                  obtain ⟨h1, _⟩ := h
                  subst h1
                  exact M_read st hlen _ _
                | fatal msg => simp at h
            · rw [if_neg hif] at h
              simp only [StepRes.cont.injEq] at h
              obtain ⟨h1, _⟩ := h
              subst h1
              exact M_read st hlen st.intWr _
        · rw [if_neg hr] at h
          by_cases hx : (x && extEofGuard st) = true
          · rw [if_pos hx] at h
            simp only [StepRes.cont.injEq] at h
            obtain ⟨h1, _⟩ := h
            subst h1
            have hpend : st.extRd.hasPendingEof = true := by
              rw [Bool.and_eq_true] at hx
              exact extEofGuard_pending st hx.2
            exact M_extEof st hpend _
          · rw [if_neg hx] at h
            simp at h

/-- The fuel `M st + 1` always suffices: the loop exits after at most
`M st + 1` iterations. -/
theorem runIter_isSome (o : Oracle γ) (g x : Bool) :
    ∀ n (st : St γ), M st < n → (runIter o g x n st).isSome = true := by
  intro n
  induction n with
  | zero => intro st h; omega
  | succ n ih =>
    intro st h
    unfold runIter
    cases hs : step o g x st with
    | done => simp
    | fail st2 msg => simp
    | cont st2 a =>
      have hlt := step_cont_M o g x st st2 a hs
      have h2 : M st2 < n := by omega
      have h3 := ih st2 h2
      cases hr : runIter o g x n st2 with
      | none => rw [hr] at h3; simp at h3
      | some r =>
        dsimp only
        rw [hr]
        obtain ⟨st3, err, tr⟩ := r
        simp

/-- Any two sufficient fuels give the same run. -/
theorem runIter_fuel (o : Oracle γ) (g x : Bool) :
    ∀ n m (st : St γ), M st < n → M st < m →
      runIter o g x n st = runIter o g x m st := by
  intro n
  induction n with
  | zero => intro m st h; omega
  | succ n ih =>
    intro m st h hm
    cases m with
    | zero => omega
    | succ m =>
      unfold runIter
      cases hs : step o g x st with
      | done => rfl
      | fail st2 msg => rfl
      | cont st2 a =>
        have hlt := step_cont_M o g x st st2 a hs
        dsimp only
        rw [ih m st2 (by omega) (by omega)]

/-- `run` is the unique result of the fueled loop. -/
theorem run_spec (o : Oracle γ) (g x : Bool) (st : St γ) :
    runIter o g x (M st + 1) st = some (run o g x st) := by
  have h := runIter_isSome o g x (M st + 1) st (by omega)
  unfold run
  cases hr : runIter o g x (M st + 1) st with
  | none => rw [hr] at h; simp at h
  | some r => simp

/-- Unfolding `run` when the loop exits immediately. -/
theorem run_done (o : Oracle γ) (g x : Bool) (st : St γ)
    (h : step o g x st = .done) : run o g x st = (st, none, []) := by
  unfold run runIter
  rw [h]
  rfl

/-- Unfolding `run` when the first iteration returns an error. -/
theorem run_fail (o : Oracle γ) (g x : Bool) (st st2 : St γ) (msg : String)
    (h : step o g x st = .fail st2 msg) :
    run o g x st = (st2, some msg, []) := by
  unfold run runIter
  rw [h]
  rfl

/-- Unfolding `run` across one `continue`. -/
theorem run_cont (o : Oracle γ) (g x : Bool) (st st2 : St γ) (a : Act)
    (h : step o g x st = .cont st2 a) :
    run o g x st =
      ((run o g x st2).1, (run o g x st2).2.1, a :: (run o g x st2).2.2) := by
  have hlt := step_cont_M o g x st st2 a h
  have h1 : runIter o g x (M st + 1) st =
      match runIter o g x (M st) st2 with
      | none => none
      | some (st3, err, tr) => some (st3, err, a :: tr) := by
    conv => left; unfold runIter
    rw [h]
  have h2 : runIter o g x (M st) st2 = some (run o g x st2) := by
    rw [runIter_fuel o g x (M st) (M st2 + 1) st2 hlt (by omega)]
    exact run_spec o g x st2
  unfold run
  rw [h1, h2]
  rfl

/-! ### Snapshot monotonicity: every loop action changes the tripwire -/

theorem bMeas_of_trip (b c : PBuf) (h : b.trip = c.trip) : bMeas b = bMeas c := by
  unfold PBuf.trip at h
  injection h with h1 h2 h3
  unfold bMeas
  rw [h1, h2, h3]

theorem bMeas_append_le (b : PBuf) (xs : List Nat) :
    bMeas b ≤ bMeas (b.append xs) := by
  unfold bMeas PBuf.append
  simp

theorem bMeas_append_lt (b : PBuf) (xs : List Nat) (h : xs ≠ []) :
    bMeas b < bMeas (b.append xs) := by
  have hl : 1 ≤ xs.length := List.length_pos.mpr h
  unfold bMeas PBuf.append
  simp
  omega

theorem bMeas_consumeAll_le (b : PBuf) : bMeas b ≤ bMeas b.consumeAll := by
  unfold bMeas PBuf.consumeAll
  simp

theorem bMeas_consumeAll_lt (b : PBuf) (h : b.isEmpty = false) :
    bMeas b < bMeas b.consumeAll := by
  have hl := length_pos_of_not_isEmpty b h
  unfold bMeas PBuf.consumeAll
  simp
  omega

theorem bMeas_close_le (b : PBuf) : bMeas b ≤ bMeas b.close := by
  unfold bMeas PBuf.close
  cases h : b.state <;> simp [rank, h]

theorem bMeas_abort_le (b : PBuf) : bMeas b ≤ bMeas b.abort := by
  unfold bMeas PBuf.abort
  cases h : b.state <;> simp [rank, h]

theorem bMeas_consumeEof_le (b : PBuf) : bMeas b ≤ bMeas (b.consumeEof).1 := by
  unfold bMeas PBuf.consumeEof
  cases h : b.state <;> simp [rank, h]

theorem bMeas_consumeEof_lt (b : PBuf) (h : b.hasPendingEof = true) :
    bMeas b < bMeas (b.consumeEof).1 := by
  rcases state_of_pending b h with h2 | h2 <;>
    · unfold bMeas PBuf.consumeEof
      simp [rank, h2]

/-- Every `continue` of the loop strictly increases the snapshot measure. -/
theorem step_sMeas_cont (o : Oracle γ) (g x : Bool) (st st2 : St γ) (a : Act)
    (h : step o g x st = .cont st2 a) : sMeas st < sMeas st2 := by
  unfold step at h
  by_cases hw : wrGuard st = true
  · rw [if_pos hw] at h
    simp only [StepRes.cont.injEq] at h
    obtain ⟨h1, _⟩ := h
    subst h1
    have hpo : st.eng.pendingOut ≠ [] := by
      have h2 := wrGuard_po st hw
      simpa using h2
    have h3 := bMeas_append_lt st.extWr st.eng.pendingOut hpo
    have h4 := bMeas_close_le (st.extWr.append st.eng.pendingOut)
    simp only [sMeas]
    by_cases h5 : (st.intRd.isDone &&
        !(Eng.wantsWrite { st.eng with pendingOut := [] })) = true
    · rw [if_pos h5]; omega
    · rw [if_neg h5]; omega
  · rw [if_neg hw] at h
    by_cases hf : feedGuard g st = true
    · rw [if_pos hf] at h
      simp only [StepRes.cont.injEq] at h
      obtain ⟨h1, _⟩ := h
      subst h1
      have hne : st.intRd.isEmpty = false := by
        unfold feedGuard at hf
        rw [Bool.and_eq_true] at hf
        simpa using hf.2
      have h3 := bMeas_consumeAll_lt st.intRd hne
      simp only [sMeas]
      omega
    · rw [if_neg hf] at h
      by_cases he : intEofGuard g st = true
      · rw [if_pos he] at h
        have hpend := intEofGuard_pending g st he
        have h3 := bMeas_consumeEof_lt st.intRd hpend
        by_cases ha : (st.intRd.consumeEof).1.isAborted = true
        · rw [if_pos ha] at h
          simp only [StepRes.cont.injEq] at h
          obtain ⟨h1, _⟩ := h
          subst h1
          have h4 := bMeas_abort_le st.extWr
          simp only [sMeas]
          omega
        · rw [if_neg ha] at h
          simp only [StepRes.cont.injEq] at h
          obtain ⟨h1, _⟩ := h
          subst h1
          simp only [sMeas]
          omega
      · rw [if_neg he] at h
        by_cases hr : rdGuard st = true
        · rw [if_pos hr] at h
          have hne : st.extRd.isEmpty = false := by
            unfold rdGuard at hr
            rw [Bool.and_eq_true] at hr
            simpa using hr.2
          have h3 := bMeas_consumeAll_lt st.extRd hne
          cases hpp : o.procPackets st.eng st.extRd.data with
          | error msg => rw [hpp] at h; simp at h
          | ok pr =>
            rw [hpp] at h
            obtain ⟨e2, readLen⟩ := pr
            simp only at h
            by_cases hif : (!st.intWr.isEof && readLen != 0) = true
            · rw [if_pos hif] at h
              cases hrp : o.readPlain e2 readLen with
              | mk e3 pr2 =>
                rw [hrp] at h
                cases pr2 with
                | bytes xs =>
                  simp only [StepRes.cont.injEq] at h
                  obtain ⟨h1, _⟩ := h
                  subst h1
                  have h4 := bMeas_append_le st.intWr xs
                  simp only [sMeas]
                  omega
                | wouldBlock =>
                  simp only [StepRes.cont.injEq] at h
                  obtain ⟨h1, _⟩ := h
                  subst h1
                  simp only [sMeas]
                  omega
                | unexpectedEof =>
                  simp only [StepRes.cont.injEq] at h
                  obtain ⟨h1, _⟩ := h
                  subst h1
                  have h4 := bMeas_abort_le st.intWr
                  simp only [sMeas]
                  omega
                | fatal msg => simp at h
            · rw [if_neg hif] at h
              simp only [StepRes.cont.injEq] at h
              obtain ⟨h1, _⟩ := h
              subst h1
              simp only [sMeas]
              omega
        · rw [if_neg hr] at h
          by_cases hx : (x && extEofGuard st) = true
          · rw [if_pos hx] at h
            simp only [StepRes.cont.injEq] at h
            obtain ⟨h1, _⟩ := h
            subst h1
            have hpend : st.extRd.hasPendingEof = true := by
              rw [Bool.and_eq_true] at hx
              exact extEofGuard_pending st hx.2
            have h3 := bMeas_consumeEof_lt st.extRd hpend
            simp only [sMeas]
            split
            · split
              · have h4 := bMeas_abort_le st.intWr
                omega
              · have h4 := bMeas_close_le st.intWr
                omega
            · omega
          · rw [if_neg hx] at h
            simp at h

/-- An error return never decreases the snapshot measure. -/
theorem step_sMeas_fail (o : Oracle γ) (g x : Bool) (st st2 : St γ)
    (msg : String) (h : step o g x st = .fail st2 msg) :
    sMeas st ≤ sMeas st2 := by
  unfold step at h
  by_cases hw : wrGuard st = true
  · rw [if_pos hw] at h; simp at h
  · rw [if_neg hw] at h
    by_cases hf : feedGuard g st = true
    · rw [if_pos hf] at h; simp at h
    · rw [if_neg hf] at h
      by_cases he : intEofGuard g st = true
      · rw [if_pos he] at h
        by_cases ha : (st.intRd.consumeEof).1.isAborted = true
        · rw [if_pos ha] at h; simp at h
        · rw [if_neg ha] at h; simp at h
      · rw [if_neg he] at h
        by_cases hr : rdGuard st = true
        · rw [if_pos hr] at h
          have h3 := bMeas_consumeAll_le st.extRd
          cases hpp : o.procPackets st.eng st.extRd.data with
          | error msg2 =>
            rw [hpp] at h
            simp only [StepRes.fail.injEq] at h
            obtain ⟨h1, _⟩ := h
            subst h1
            simp only [sMeas]
            omega
          | ok pr =>
            rw [hpp] at h
            obtain ⟨e2, readLen⟩ := pr
            simp only at h
            by_cases hif : (!st.intWr.isEof && readLen != 0) = true
            · rw [if_pos hif] at h
              cases hrp : o.readPlain e2 readLen with
              | mk e3 pr2 =>
                rw [hrp] at h
                cases pr2 with
                | bytes xs => simp at h
                | wouldBlock => simp at h
                | unexpectedEof => simp at h
                | fatal msg2 =>
                  simp only [StepRes.fail.injEq] at h
                  obtain ⟨h1, _⟩ := h
                  subst h1
                  simp only [sMeas]
                  omega
            · rw [if_neg hif] at h; simp at h
        · rw [if_neg hr] at h
          by_cases hx : (x && extEofGuard st) = true
          · rw [if_pos hx] at h; simp at h
          · rw [if_neg hx] at h; simp at h

theorem some_triple_fst {α β δ : Type} {a c : α} {b b2 : β} {d d2 : δ}
    (h : (some (a, b, d) : Option (α × β × δ)) = some (c, b2, d2)) : a = c := by
  injection h with h2
  exact congrArg Prod.fst h2

/-- The snapshot measure never decreases along a run. -/
theorem runIter_sMeas (o : Oracle γ) (g x : Bool) :
    ∀ n (st st3 : St γ) (err : Option String) (tr : List Act),
      runIter o g x n st = some (st3, err, tr) → sMeas st ≤ sMeas st3 := by
  intro n
  induction n with
  | zero => intro st st3 err tr h; simp [runIter] at h
  | succ n ih =>
    intro st st3 err tr h
    unfold runIter at h
    cases hs : step o g x st with
    | done =>
      rw [hs] at h
      rw [← some_triple_fst h]
    | fail st2 msg =>
      rw [hs] at h
      rw [← some_triple_fst h]
      exact step_sMeas_fail o g x st st2 msg hs
    | cont st2 a =>
      rw [hs] at h
      dsimp only at h
      cases hr : runIter o g x n st2 with
      | none => rw [hr] at h; simp at h
      | some r =>
        rw [hr] at h
        obtain ⟨st4, err2, tr2⟩ := r
        have h5 := ih st2 st4 err2 tr2 hr
        have h6 := step_sMeas_cont o g x st st2 a hs
        rw [← some_triple_fst h]
        omega

/-! ### A no-activity call leaves everything untouched -/

theorem consumeEof_not_pending (b : PBuf) (h : b.hasPendingEof = false) :
    b.consumeEof = (b, false) := by
  unfold PBuf.hasPendingEof at h
  unfold PBuf.consumeEof
  cases h2 : b.state <;> rw [h2] at h <;> simp_all

theorem append_nil_eq (b : PBuf) : b.append [] = b := by
  unfold PBuf.append
  simp

theorem consumeAll_nil (b : PBuf) (h : b.data = []) : b.consumeAll = b := by
  cases b with
  | mk d c s =>
    simp only at h
    unfold PBuf.consumeAll
    simp [h]

theorem consumeEof_state_ne (b : PBuf) (h : b.hasPendingEof = true) :
    (b.consumeEof).1.state ≠ b.state := by
  rcases state_of_pending b h with h2 | h2 <;> simp [PBuf.consumeEof, h2]

theorem hasPendingEof_consumeAll (b : PBuf) :
    b.consumeAll.hasPendingEof = b.hasPendingEof := rfl

theorem state_consumeAll (b : PBuf) : b.consumeAll.state = b.state := rfl

theorem sMeas_of_snap (st st2 : St γ) (h : pSnap st2.pipes = pSnap st.pipes) :
    sMeas st2 = sMeas st := by
  unfold pSnap St.pipes at h
  simp only [Prod.mk.injEq] at h
  obtain ⟨h1, h2, h3, h4⟩ := h
  unfold sMeas
  rw [bMeas_of_trip _ _ h1, bMeas_of_trip _ _ h2, bMeas_of_trip _ _ h3,
    bMeas_of_trip _ _ h4]

/-- If `forward` changes neither end's snapshot, it changes nothing. -/
theorem forward_noop (rd wr : PBuf)
    (h1 : (forward rd wr).1.trip = rd.trip)
    (h2 : (forward rd wr).2.trip = wr.trip) :
    forward rd wr = (rd, wr) := by
  unfold forward at h1 h2 ⊢
  by_cases hw : wr.isEof = true
  · rw [if_pos hw]
  · rw [if_neg hw] at h1 h2 ⊢
    by_cases hp : rd.hasPendingEof = true
    · exfalso
      have hp2 : rd.consumeAll.hasPendingEof = true := by
        rw [hasPendingEof_consumeAll]; exact hp
      have h3 := consumeEof_state_ne rd.consumeAll hp2
      simp only at h1
      have h4 : (rd.consumeAll.consumeEof).1.trip.state = rd.trip.state := by
        rw [h1]
      unfold PBuf.trip at h4
      simp only at h4
      rw [state_consumeAll] at h3
      exact h3 h4
    · have hp2 : rd.consumeAll.hasPendingEof = false := by
        rw [hasPendingEof_consumeAll]
        simpa using hp
      have h5 := consumeEof_not_pending rd.consumeAll hp2
      simp only [h5] at h1 h2 ⊢
      have h6 : rd.data = [] := by
        have h7 : rd.consumeAll.trip.pos = rd.trip.pos := by rw [h1]
        unfold PBuf.trip PBuf.consumeAll at h7
        simp only at h7
        have h8 : rd.data.length = 0 := by omega
        exact List.length_eq_zero.mp h8
      rw [consumeAll_nil rd h6, h6, append_nil_eq]
      simp

/-- If the pass-through changes no snapshot, it changes nothing. -/
theorem passProcess_noop (p : Pipes) (h : pSnap (passProcess p) = pSnap p) :
    passProcess p = p := by
  unfold pSnap at h
  simp only [Prod.mk.injEq] at h
  obtain ⟨h1, h2, h3, h4⟩ := h
  unfold passProcess at h1 h2 h3 h4 ⊢
  simp only at h1 h2 h3 h4
  have ha := forward_noop p.intRd p.extWr h3 h2
  have hb := forward_noop p.extRd p.intWr h1 h4
  rw [ha, hb]

/-- A run whose final snapshot equals the initial one did nothing: the very
first iteration already exited the loop. -/
theorem run_noop (o : Oracle γ) (g x : Bool) (st st3 : St γ) (tr : List Act)
    (h : run o g x st = (st3, none, tr))
    (hsnap : pSnap st3.pipes = pSnap st.pipes) :
    st3 = st ∧ tr = [] ∧ step o g x st = .done := by
  cases hs : step o g x st with
  | done =>
    rw [run_done o g x st hs] at h
    injection h with ha hb
    injection hb with hb hc
    exact ⟨ha.symm, hc.symm, rfl⟩
  | fail st2 msg =>
    rw [run_fail o g x st st2 msg hs] at h
    injection h with ha hb
    injection hb with hb hc
    simp at hb
  | cont st2 a =>
    exfalso
    rw [run_cont o g x st st2 a hs] at h
    injection h with ha hb
    injection hb with hb hc
    have h5 := run_spec o g x st2
    have h6 := runIter_sMeas o g x (M st2 + 1) st2 (run o g x st2).1
      (run o g x st2).2.1 (run o g x st2).2.2 (by rw [h5])
    have h7 := step_sMeas_cont o g x st st2 a hs
    rw [ha] at h6
    have h8 := sMeas_of_snap st st3 hsnap
    omega

/-- `process` reports activity exactly when the four-end snapshot changed
(`Ok(after != before)`). -/
theorem procWith_activity (o : Oracle γ) (g x : Bool) (e? : Option (Eng γ))
    (p : Pipes) (r : Option (Eng γ) × Pipes) (b : Bool)
    (h : procWith o g x e? p = (r, .ok b)) :
    b = decide (¬ pSnap r.2 = pSnap p) := by
  unfold procWith at h
  cases e? with
  | none =>
    simp only at h
    injection h with ha hb
    injection hb with hb
    rw [← hb, ← ha]
  | some e =>
    simp only at h
    cases he : (run o g x (mkSt p e)).2.1 with
    | some msg => rw [he] at h; simp at h
    | none =>
      rw [he] at h
      injection h with ha hb
      injection hb with hb
      rw [← hb, ← ha]

/-- A call that reports no activity changed neither the pipes nor the
engine; calling again gives the same no-activity result. -/
theorem procWith_ok_false (o : Oracle γ) (g x : Bool) (e? : Option (Eng γ))
    (p : Pipes) (e2 : Option (Eng γ)) (p2 : Pipes)
    (h : procWith o g x e? p = ((e2, p2), .ok false)) :
    p2 = p ∧ e2 = e? := by
  have hb := procWith_activity o g x e? p (e2, p2) false h
  have hsnap : pSnap p2 = pSnap p := by
    by_contra hne
    rw [eq_comm, decide_eq_false_iff_not] at hb
    exact hb hne
  unfold procWith at h
  cases e? with
  | none =>
    simp only at h
    injection h with ha hb2
    have hp : passProcess p = p := by
      apply passProcess_noop
      have : p2 = passProcess p := by
        have := congrArg Prod.snd ha
        simpa using this.symm
      rw [← this]
      exact hsnap
    constructor
    · have := congrArg Prod.snd ha
      simp only at this
      rw [← this, hp]
    · have := congrArg Prod.fst ha
      simpa using this.symm
  | some e =>
    simp only at h
    cases he : (run o g x (mkSt p e)).2.1 with
    | some msg => rw [he] at h; simp at h
    | none =>
      rw [he] at h
      injection h with ha hb2
      have hp2 : p2 = (run o g x (mkSt p e)).1.pipes := by
        have := congrArg Prod.snd ha
        simpa using this.symm
      have hE : e2 = some (run o g x (mkSt p e)).1.eng := by
        have := congrArg Prod.fst ha
        simpa using this.symm
      have hrn : run o g x (mkSt p e) =
          ((run o g x (mkSt p e)).1, none,
            (run o g x (mkSt p e)).2.2) := by
        rw [← he]
      have hsnap2 : pSnap (run o g x (mkSt p e)).1.pipes
          = pSnap (mkSt p e).pipes := by
        have hmk : (mkSt p e).pipes = p := rfl
        rw [hmk, ← hp2]
        exact hsnap
      obtain ⟨hst, -, -⟩ := run_noop o g x (mkSt p e)
        (run o g x (mkSt p e)).1 (run o g x (mkSt p e)).2.2 hrn hsnap2
      constructor
      · rw [hp2, hst]
        rfl
      · rw [hE, hst]
        rfl

/-! ### Frame lemmas once the internal read end is done -/

theorem pending_false_of_done (b : PBuf) (h : b.isDone = true) :
    b.hasPendingEof = false := by
  unfold PBuf.isDone at h
  unfold PBuf.hasPendingEof
  cases h2 : b.state <;> rw [h2] at h <;> simp_all

theorem done_false_of_pending (b : PBuf) (h : b.hasPendingEof = true) :
    b.isDone = false := by
  unfold PBuf.hasPendingEof at h
  unfold PBuf.isDone
  cases h2 : b.state <;> rw [h2] at h <;> simp_all

theorem isAborted_append (b : PBuf) (xs : List Nat) :
    (b.append xs).isAborted = b.isAborted := rfl

theorem isAborted_close (b : PBuf) : b.close.isAborted = b.isAborted := by
  unfold PBuf.close PBuf.isAborted
  cases h : b.state <;> simp [h]

theorem isEof_abort (b : PBuf) : b.abort.isEof = true := by
  unfold PBuf.abort PBuf.isEof
  cases h : b.state <;> simp [h]

theorem isEof_append (b : PBuf) (xs : List Nat) :
    (b.append xs).isEof = b.isEof := rfl

theorem abort_state_append (b : PBuf) (xs : List Nat) :
    ((b.append xs).abort).state = (b.abort).state := by
  unfold PBuf.append PBuf.abort
  cases h : b.state <;> simp [h]

theorem isDone_consumeAll (b : PBuf) : b.consumeAll.isDone = b.isDone := rfl

/-- One `continue` with `int.rd` already done: the internal read end's state
and the abort status of the external write end are untouched, the external
write end is fully untouched if it was already at EOF, and neither internal
EOF action can fire. -/
theorem step_preserve_done (o : Oracle γ) (g x : Bool) (st st2 : St γ)
    (a : Act) (h : step o g x st = .cont st2 a)
    (hd : st.intRd.isDone = true) :
    st2.intRd.state = st.intRd.state ∧
    st2.extWr.isAborted = st.extWr.isAborted ∧
    (st.extWr.isEof = true → st2.extWr = st.extWr) ∧
    a ≠ Act.intEofClose ∧ a ≠ Act.intEofAbort := by
  unfold step at h
  by_cases hw : wrGuard st = true
  · rw [if_pos hw] at h
    simp only [StepRes.cont.injEq] at h
    obtain ⟨h1, h2⟩ := h
    subst h1
    have hne : st.extWr.isEof = false := by
      unfold wrGuard at hw
      rw [Bool.and_eq_true] at hw
      simpa using hw.2
    refine ⟨rfl, ?_, ?_, by rw [← h2]; simp, by rw [← h2]; simp⟩
    · simp only
      split
      · rw [isAborted_close, isAborted_append]
      · rw [isAborted_append]
    · intro hcon
      rw [hcon] at hne
      simp at hne
  · rw [if_neg hw] at h
    by_cases hf : feedGuard g st = true
    · rw [if_pos hf] at h
      simp only [StepRes.cont.injEq] at h
      obtain ⟨h1, h2⟩ := h
      subst h1
      exact ⟨rfl, rfl, fun _ => rfl, by rw [← h2]; simp, by rw [← h2]; simp⟩
    · rw [if_neg hf] at h
      by_cases he : intEofGuard g st = true
      · exfalso
        have hpend := intEofGuard_pending g st he
        rw [pending_false_of_done st.intRd hd] at hpend
        simp at hpend
      · rw [if_neg he] at h
        by_cases hr : rdGuard st = true
        · rw [if_pos hr] at h
          cases hpp : o.procPackets st.eng st.extRd.data with
          | error msg => rw [hpp] at h; simp at h
          | ok pr =>
            rw [hpp] at h
            obtain ⟨e2, readLen⟩ := pr
            simp only at h
            by_cases hif : (!st.intWr.isEof && readLen != 0) = true
            · rw [if_pos hif] at h
              cases hrp : o.readPlain e2 readLen with
              | mk e3 pr2 =>
                rw [hrp] at h
                cases pr2 with
                | bytes xs =>
                  simp only [StepRes.cont.injEq] at h
                  obtain ⟨h1, h2⟩ := h
                  subst h1
                  exact ⟨rfl, rfl, fun _ => rfl, by rw [← h2]; simp,
                    by rw [← h2]; simp⟩
                | wouldBlock =>
                  simp only [StepRes.cont.injEq] at h
                  obtain ⟨h1, h2⟩ := h
                  subst h1
                  exact ⟨rfl, rfl, fun _ => rfl, by rw [← h2]; simp,
                    by rw [← h2]; simp⟩
                | unexpectedEof =>
                  simp only [StepRes.cont.injEq] at h
                  obtain ⟨h1, h2⟩ := h
                  subst h1
                  exact ⟨rfl, rfl, fun _ => rfl, by rw [← h2]; simp,
                    by rw [← h2]; simp⟩
                | fatal msg => simp at h
            · rw [if_neg hif] at h
              simp only [StepRes.cont.injEq] at h
              obtain ⟨h1, h2⟩ := h
              subst h1
              exact ⟨rfl, rfl, fun _ => rfl, by rw [← h2]; simp,
                by rw [← h2]; simp⟩
        · rw [if_neg hr] at h
          by_cases hx : (x && extEofGuard st) = true
          · rw [if_pos hx] at h
            simp only [StepRes.cont.injEq] at h
            obtain ⟨h1, h2⟩ := h
            subst h1
            exact ⟨rfl, rfl, fun _ => rfl, by rw [← h2]; simp,
              by rw [← h2]; simp⟩
          · rw [if_neg hx] at h
            simp at h

/-- An error return leaves `int.rd` and `ext.wr` untouched. -/
theorem step_fail_frame (o : Oracle γ) (g x : Bool) (st st2 : St γ)
    (msg : String) (h : step o g x st = .fail st2 msg) :
    st2.intRd = st.intRd ∧ st2.extWr = st.extWr := by
  unfold step at h
  by_cases hw : wrGuard st = true
  · rw [if_pos hw] at h; simp at h
  · rw [if_neg hw] at h
    by_cases hf : feedGuard g st = true
    · rw [if_pos hf] at h; simp at h
    · rw [if_neg hf] at h
      by_cases he : intEofGuard g st = true
      · rw [if_pos he] at h
        by_cases ha : (st.intRd.consumeEof).1.isAborted = true
        · rw [if_pos ha] at h; simp at h
        · rw [if_neg ha] at h; simp at h
      · rw [if_neg he] at h
        by_cases hr : rdGuard st = true
        · rw [if_pos hr] at h
          cases hpp : o.procPackets st.eng st.extRd.data with
          | error msg2 =>
            rw [hpp] at h
            simp only [StepRes.fail.injEq] at h
            obtain ⟨h1, _⟩ := h
            subst h1
            exact ⟨rfl, rfl⟩
          | ok pr =>
            rw [hpp] at h
            obtain ⟨e2, readLen⟩ := pr
            simp only at h
            by_cases hif : (!st.intWr.isEof && readLen != 0) = true
            · rw [if_pos hif] at h
              cases hrp : o.readPlain e2 readLen with
              | mk e3 pr2 =>
                rw [hrp] at h
                cases pr2 with
                | bytes xs => simp at h
                | wouldBlock => simp at h
                | unexpectedEof => simp at h
                | fatal msg2 =>
                  simp only [StepRes.fail.injEq] at h
                  obtain ⟨h1, _⟩ := h
                  subst h1
                  exact ⟨rfl, rfl⟩
            · rw [if_neg hif] at h; simp at h
        · rw [if_neg hr] at h
          by_cases hx : (x && extEofGuard st) = true
          · rw [if_pos hx] at h; simp at h
          · rw [if_neg hx] at h; simp at h

/-- Whole-run frame once `int.rd` is done. -/
theorem runIter_preserve_done (o : Oracle γ) (g x : Bool) :
    ∀ n (st st3 : St γ) (err : Option String) (tr : List Act),
      runIter o g x n st = some (st3, err, tr) → st.intRd.isDone = true →
      st3.intRd.state = st.intRd.state ∧
      st3.extWr.isAborted = st.extWr.isAborted ∧
      (st.extWr.isEof = true → st3.extWr = st.extWr) ∧
      Act.intEofClose ∉ tr ∧ Act.intEofAbort ∉ tr := by
  intro n
  induction n with
  | zero => intro st st3 err tr h hd; simp [runIter] at h
  | succ n ih =>
    intro st st3 err tr h hd
    unfold runIter at h
    cases hs : step o g x st with
    | done =>
      rw [hs] at h
      injection h with h2
      injection h2 with h2 h3
      injection h3 with h3 h4
      subst h2; subst h4
      exact ⟨rfl, rfl, fun _ => rfl, by simp, by simp⟩
    | fail st2 msg =>
      rw [hs] at h
      injection h with h2
      injection h2 with h2 h3
      injection h3 with h3 h4
      subst h2; subst h4
      obtain ⟨hA, hB⟩ := step_fail_frame o g x st st2 msg hs
      exact ⟨by rw [hA], by rw [hB], fun _ => hB, by simp, by simp⟩
    | cont st2 a =>
      rw [hs] at h
      dsimp only at h
      cases hr : runIter o g x n st2 with
      | none => rw [hr] at h; simp at h
      | some r =>
        rw [hr] at h
        obtain ⟨st4, err2, tr2⟩ := r
        injection h with h2
        injection h2 with h2 h3
        injection h3 with h3 h4
        subst h2; subst h4
        obtain ⟨pA, pB, pC, pD, pE⟩ := step_preserve_done o g x st st2 a hs hd
        have hd2 : st2.intRd.isDone = true := by
          unfold PBuf.isDone at hd ⊢
          rw [pA]
          exact hd
        obtain ⟨qA, qB, qC, qD, qE⟩ := ih st2 st4 err2 tr2 hr hd2
        refine ⟨by rw [qA, pA], by rw [qB, pB], ?_, ?_, ?_⟩
        · intro hEof
          have h5 := pC hEof
          have h6 : st2.extWr.isEof = true := by rw [h5]; exact hEof
          rw [qC h6, h5]
        · intro hmem
          rcases List.mem_cons.mp hmem with h7 | h7
          · exact pD h7.symm
          · exact qD h7
        · intro hmem
          rcases List.mem_cons.mp hmem with h7 | h7
          · exact pE h7.symm
          · exact qE h7

theorem run_preserve_done (o : Oracle γ) (g x : Bool) (st : St γ)
    (hd : st.intRd.isDone = true) :
    (run o g x st).1.intRd.state = st.intRd.state ∧
    (run o g x st).1.extWr.isAborted = st.extWr.isAborted ∧
    (st.extWr.isEof = true → (run o g x st).1.extWr = st.extWr) ∧
    Act.intEofClose ∉ (run o g x st).2.2 ∧
    Act.intEofAbort ∉ (run o g x st).2.2 := by
  have h := run_spec o g x st
  exact runIter_preserve_done o g x (M st + 1) st (run o g x st).1
    (run o g x st).2.1 (run o g x st).2.2 h hd

/-- Internal-EOF handling from a state where the drain guard is off: the
abrupt case. -/
theorem c3_core_abort (o : Oracle γ) (st : St γ)
    (hw : wrGuard st = false) (hhs : st.eng.hs = false)
    (hemp : st.intRd.data = []) (hst : st.intRd.state = .Aborting) :
    (run o true true st).1.intRd.state = .Aborted ∧
    (run o true true st).1.extWr.state = (st.extWr.abort).state ∧
    Act.intEofClose ∉ (run o true true st).2.2 := by
  have hpend : st.intRd.hasPendingEof = true := by
    simp [PBuf.hasPendingEof, hst]
  have hce : st.intRd.consumeEof = ({ st.intRd with state := .Aborted }, true) := by
    simp [PBuf.consumeEof, hst]
  have hstep : step o true true st =
      .cont { st with intRd := { st.intRd with state := .Aborted },
                      extWr := st.extWr.abort } .intEofAbort := by
    unfold step
    rw [if_neg (by simp [hw]), if_neg (by simp [feedGuard, PBuf.isEmpty, hemp]),
      if_pos (show intEofGuard true st = true by
        simp [intEofGuard, PBuf.isEmpty, hemp, hhs, hpend])]
    rw [hce]
    simp [PBuf.isAborted]
  rw [run_cont o true true st _ _ hstep]
  have hd : ({ st with intRd := { st.intRd with state := .Aborted }, extWr := st.extWr.abort } : St γ).intRd.isDone = true := by
    simp [PBuf.isDone]
  obtain ⟨qA, qB, qC, qD, qE⟩ := run_preserve_done o true true
    { st with intRd := { st.intRd with state := .Aborted }, extWr := st.extWr.abort } hd
  refine ⟨by rw [qA], ?_, ?_⟩
  · have h6 := qC (by simp [isEof_abort])
    rw [h6]
  · intro hmem
    rcases List.mem_cons.mp hmem with h7 | h7
    · simp at h7
    · exact qD h7

/-- Internal-EOF handling from a state where the drain guard is off: the
graceful case. -/
theorem c3_core_close (o : Oracle γ) (st : St γ)
    (hw : wrGuard st = false) (hhs : st.eng.hs = false)
    (hemp : st.intRd.data = []) (hst : st.intRd.state = .Closing) :
    (run o true true st).1.intRd.state = .Closed ∧
    Act.intEofClose ∈ (run o true true st).2.2 ∧
    (run o true true st).1.extWr.isAborted = st.extWr.isAborted := by
  have hpend : st.intRd.hasPendingEof = true := by
    simp [PBuf.hasPendingEof, hst]
  have hce : st.intRd.consumeEof = ({ st.intRd with state := .Closed }, true) := by
    simp [PBuf.consumeEof, hst]
  have hna : ({ st.intRd with state := PBufState.Closed } : PBuf).isAborted
      = false := by
    simp [PBuf.isAborted]
  have hstep : step o true true st =
      .cont { st with intRd := { st.intRd with state := .Closed },
                      eng := o.closeNotify st.eng } .intEofClose := by
    unfold step
    rw [if_neg (by simp [hw]), if_neg (by simp [feedGuard, PBuf.isEmpty, hemp]),
      if_pos (show intEofGuard true st = true by
        simp [intEofGuard, PBuf.isEmpty, hemp, hhs, hpend])]
    rw [hce]
    simp [hna]
  rw [run_cont o true true st _ _ hstep]
  have hd : ({ st with intRd := { st.intRd with state := .Closed }, eng := o.closeNotify st.eng } : St γ).intRd.isDone = true := by
    simp [PBuf.isDone]
  obtain ⟨qA, qB, qC, qD, qE⟩ := run_preserve_done o true true
    { st with intRd := { st.intRd with state := .Closed }, eng := o.closeNotify st.eng } hd
  exact ⟨by rw [qA], List.mem_cons_self _ _, by rw [qB]⟩

/-- Internal-EOF handling of the gated stream loop, whole-call version. -/
theorem c3_main (o : Oracle γ) (st : St γ) (hhs : st.eng.hs = false)
    (hemp : st.intRd.data = []) :
    (st.intRd.state = .Aborting →
      (run o true true st).1.intRd.state = .Aborted ∧
      (run o true true st).1.extWr.state = (st.extWr.abort).state ∧
      Act.intEofClose ∉ (run o true true st).2.2) ∧
    (st.intRd.state = .Closing →
      (run o true true st).1.intRd.state = .Closed ∧
      Act.intEofClose ∈ (run o true true st).2.2 ∧
      (run o true true st).1.extWr.isAborted = st.extWr.isAborted) := by
  by_cases hw : wrGuard st = true
  · have hpd : ∀ s2, st.intRd.state = s2 →
        (s2 = PBufState.Aborting ∨ s2 = PBufState.Closing) →
        st.intRd.isDone = false := by
      intro s2 h2 h3
      unfold PBuf.isDone
      rcases h3 with h3 | h3 <;> rw [h2, h3] <;> rfl
    constructor
    · intro hst
      have hdone := hpd _ hst (Or.inl rfl)
      have hstep : step o true true st =
          .cont { st with extWr := st.extWr.append st.eng.pendingOut,
                          eng := { st.eng with pendingOut := [] } }
            .writeTls := by
        unfold step
        rw [if_pos hw]
        simp [hdone]
      rw [run_cont o true true st _ _ hstep]
      have hw2 : wrGuard { st with extWr := st.extWr.append st.eng.pendingOut, eng := { st.eng with pendingOut := [] } } = false := by
        simp [wrGuard, Eng.wantsWrite]
      obtain ⟨cA, cB, cC⟩ := c3_core_abort o
        { st with extWr := st.extWr.append st.eng.pendingOut, eng := { st.eng with pendingOut := [] } }
        hw2 hhs hemp hst
      refine ⟨cA, ?_, ?_⟩
      · rw [cB]
        exact abort_state_append st.extWr st.eng.pendingOut
      · intro hmem
        rcases List.mem_cons.mp hmem with h7 | h7
        · simp at h7
        · exact cC h7
    · intro hst
      have hdone := hpd _ hst (Or.inr rfl)
      have hstep : step o true true st =
          .cont { st with extWr := st.extWr.append st.eng.pendingOut,
                          eng := { st.eng with pendingOut := [] } }
            .writeTls := by
        unfold step
        rw [if_pos hw]
        simp [hdone]
      rw [run_cont o true true st _ _ hstep]
      have hw2 : wrGuard { st with extWr := st.extWr.append st.eng.pendingOut, eng := { st.eng with pendingOut := [] } } = false := by
        simp [wrGuard, Eng.wantsWrite]
      obtain ⟨cA, cB, cC⟩ := c3_core_close o
        { st with extWr := st.extWr.append st.eng.pendingOut, eng := { st.eng with pendingOut := [] } }
        hw2 hhs hemp hst
      refine ⟨cA, List.mem_cons_of_mem _ cB, ?_⟩
      · rw [cC]
        exact isAborted_append st.extWr st.eng.pendingOut
  · have hw2 : wrGuard st = false := by simpa using hw
    exact ⟨fun hst => c3_core_abort o st hw2 hhs hemp hst,
      fun hst => c3_core_close o st hw2 hhs hemp hst⟩

/-! ### Guard extraction helpers for the per-iteration claims -/

theorem feedGuard_hs (st : St γ) (h : feedGuard true st = true) :
    st.eng.hs = false := by
  unfold feedGuard at h
  rw [Bool.and_eq_true] at h
  have h2 := h.1
  simpa using h2

theorem intEofGuard_hs (st : St γ) (h : intEofGuard true st = true) :
    st.eng.hs = false := by
  unfold intEofGuard at h
  rw [Bool.and_eq_true, Bool.and_eq_true] at h
  have h2 := h.1.1
  simpa using h2

theorem isAborted_consumeEof (b : PBuf) :
    (b.consumeEof).1.isAborted = b.isAborted := by
  unfold PBuf.consumeEof PBuf.isAborted
  cases h : b.state <;> simp [h]

theorem hasPendingEof_consumeEof (b : PBuf) :
    (b.consumeEof).1.hasPendingEof = false := by
  unfold PBuf.consumeEof PBuf.hasPendingEof
  cases h : b.state <;> simp [h]

theorem isDone_consumeEof_of_pending (b : PBuf) (h : b.hasPendingEof = true) :
    (b.consumeEof).1.isDone = true := by
  rcases state_of_pending b h with h2 | h2 <;>
    simp [PBuf.consumeEof, h2, PBuf.isDone]

theorem consume_zero (b : PBuf) : b.consume 0 = b := by
  cases b with
  | mk d c s => simp [PBuf.consume]

/-! ### Claim theorems, counterexamples and witnesses -/

/-- Claim C1, counterexample: the stream-style acceptor of `src/lib.rs` is
an adapter variant that feeds the internal read end's unread byte to the
engine's plaintext writer even though `is_handshaking()` is true, consuming
it; so the gate does not hold for every stream-style variant. -/
theorem c1_counterexample :
    c1eng.hs = true ∧
    TlsServerLib.process logOracle (some c1eng) c1pipes =
      ((some { core := [[7]], hs := true, wantsRead := false,
               pendingOut := [] },
        { extRd := pbSt [] .Open, extWr := pbSt [] .Open,
          intRd := { data := [], consumed := 1, state := .Open },
          intWr := pbSt [] .Open }), .ok true) := by
  constructor
  · rfl
  · rfl

/-- Claim C1 (amended to the `client.rs`/`server.rs` variants): in the gated
stream loop, the plaintext feed and the internal-EOF consumption fire only
when the engine reports the handshake as complete, and while the handshake
is outstanding no iteration touches the internal read end. -/
theorem c1_stream_gate (o : Oracle γ) (x : Bool) (st st2 : St γ) (a : Act) :
    (step o true x st = .cont st2 a →
      (a = .feedPlain ∨ a = .intEofAbort ∨ a = .intEofClose) →
      st.eng.hs = false) ∧
    (st.eng.hs = true → step o true x st = .cont st2 a →
      st2.intRd = st.intRd) := by
  constructor
  · intro h ha
    unfold step at h
    by_cases hw : wrGuard st = true
    · rw [if_pos hw] at h
      simp only [StepRes.cont.injEq] at h
      rcases ha with h2 | h2 | h2 <;> rw [h2] at h <;> simp at h
    · rw [if_neg hw] at h
      by_cases hf : feedGuard true st = true
      · exact feedGuard_hs st hf
      · rw [if_neg hf] at h
        by_cases he : intEofGuard true st = true
        · exact intEofGuard_hs st he
        · rw [if_neg he] at h
          by_cases hr : rdGuard st = true
          · rw [if_pos hr] at h
            cases hpp : o.procPackets st.eng st.extRd.data with
            | error msg => rw [hpp] at h; simp at h
            | ok pr =>
              rw [hpp] at h
              obtain ⟨e2, readLen⟩ := pr
              simp only at h
              by_cases hif : (!st.intWr.isEof && readLen != 0) = true
              · rw [if_pos hif] at h
                cases hrp : o.readPlain e2 readLen with
                | mk e3 pr2 =>
                  rw [hrp] at h
                  cases pr2 <;> simp only [StepRes.cont.injEq] at h <;>
                    first
                    | (rcases ha with h2 | h2 | h2 <;> rw [h2] at h <;>
                        simp at h)
                    | simp at h
              · rw [if_neg hif] at h
                simp only [StepRes.cont.injEq] at h
                rcases ha with h2 | h2 | h2 <;> rw [h2] at h <;> simp at h
          · rw [if_neg hr] at h
            by_cases hx : (x && extEofGuard st) = true
            · rw [if_pos hx] at h
              simp only [StepRes.cont.injEq] at h
              rcases ha with h2 | h2 | h2 <;> rw [h2] at h <;> simp at h
            · rw [if_neg hx] at h
              simp at h
  · intro hhs h
    unfold step at h
    by_cases hw : wrGuard st = true
    · rw [if_pos hw] at h
      simp only [StepRes.cont.injEq] at h
      obtain ⟨h1, _⟩ := h
      rw [← h1]
    · rw [if_neg hw] at h
      have hf : feedGuard true st = false := by
        unfold feedGuard
        simp [hhs]
      have he : intEofGuard true st = false := by
        unfold intEofGuard
        simp [hhs]
      rw [hf] at h
      rw [if_neg (by simp)] at h
      rw [he] at h
      rw [if_neg (by simp)] at h
      by_cases hr : rdGuard st = true
      · rw [if_pos hr] at h
        cases hpp : o.procPackets st.eng st.extRd.data with
        | error msg => rw [hpp] at h; simp at h
        | ok pr =>
          rw [hpp] at h
          obtain ⟨e2, readLen⟩ := pr
          simp only at h
          by_cases hif : (!st.intWr.isEof && readLen != 0) = true
          · rw [if_pos hif] at h
            cases hrp : o.readPlain e2 readLen with
            | mk e3 pr2 =>
              rw [hrp] at h
              cases pr2 with
              | bytes xs =>
                simp only [StepRes.cont.injEq] at h
                obtain ⟨h1, _⟩ := h
                rw [← h1]
              | wouldBlock =>
                simp only [StepRes.cont.injEq] at h
                obtain ⟨h1, _⟩ := h
                rw [← h1]
              | unexpectedEof =>
                simp only [StepRes.cont.injEq] at h
                obtain ⟨h1, _⟩ := h
                rw [← h1]
              | fatal msg => simp at h
          · rw [if_neg hif] at h
            simp only [StepRes.cont.injEq] at h
            obtain ⟨h1, _⟩ := h
            rw [← h1]
      · rw [if_neg hr] at h
        by_cases hx : (x && extEofGuard st) = true
        · rw [if_pos hx] at h
          simp only [StepRes.cont.injEq] at h
          obtain ⟨h1, _⟩ := h
          rw [← h1]
        · rw [if_neg hx] at h
          simp at h

/-- Witness for C1's amended theorem at concrete states: a plaintext-feed
iteration implies the handshake is complete, and with the handshake
outstanding a (ciphertext-drain) iteration leaves the internal read end
untouched. -/
theorem c1_stream_gate_witness :
    c2eng.hs = false ∧
    ({ extRd := pbSt [] .Open,
       extWr := { data := [9], consumed := 0, state := .Open },
       intRd := pbSt [7] .Open, intWr := pbSt [] .Open,
       eng := { core := [], hs := true, wantsRead := false,
                pendingOut := [] } } : St (List (List Nat))).intRd
      = (mkSt c1pipes { c1eng with pendingOut := [9] }).intRd := by
  constructor
  · exact (c1_stream_gate logOracle true (mkSt c1pipes c2eng)
      { extRd := pbSt [] .Open, extWr := pbSt [] .Open,
        intRd := { data := [], consumed := 1, state := .Open },
        intWr := pbSt [] .Open,
        eng := { core := [[7]], hs := false, wantsRead := false,
                 pendingOut := [] } } Act.feedPlain).1 rfl (Or.inl rfl)
  · exact (c1_stream_gate logOracle true
      (mkSt c1pipes { c1eng with pendingOut := [9] })
      { extRd := pbSt [] .Open,
        extWr := { data := [9], consumed := 0, state := .Open },
        intRd := pbSt [7] .Open, intWr := pbSt [] .Open,
        eng := { core := [], hs := true, wantsRead := false,
                 pendingOut := [] } } Act.writeTls).2 rfl rfl

/-- Claim C2, counterexample: on the `src/lib.rs` stream-style adapter, with
the external read end empty and holding a pending graceful end-of-stream
(and the internal write end not at end-of-file), `process` consumes nothing:
the pending end-of-stream stays pending and the internal write end stays
open, although the claim requires the call to consume it and close the
internal write end. -/
theorem c2_counterexample :
    c2pipes.extRd.hasPendingEof = true ∧
    c2pipes.extRd.isEmpty = true ∧
    c2pipes.intWr.isEof = false ∧
    TlsServerLib.process logOracle (some c2eng) c2pipes =
      ((some c2eng, c2pipes), .ok false) := by
  exact ⟨rfl, rfl, rfl, rfl⟩

/-- Claim C2 (amended to the `client.rs`/`server.rs` variants, stated per
iteration of the loop): when the first four guards are off and the
external-EOF guard holds, the iteration consumes the external end-of-stream
and closes (graceful) or aborts (abrupt) the internal write end unless that
end is already finished; and whenever the pending external end-of-stream is
graceful with unread ciphertext remaining and the internal read end not
done, no iteration consumes it. -/
theorem c2_ext_eof_rule (o : Oracle γ) (st : St γ) :
    ((wrGuard st = false) → (feedGuard true st = false) →
     (intEofGuard true st = false) → (rdGuard st = false) →
     (extEofGuard st = true) →
     (∃ st2, step o true true st = .cont st2 .extEof) ∧
     (∀ st2 a, step o true true st = .cont st2 a →
       st2.extRd.hasPendingEof = false ∧ st2.extRd.isDone = true ∧
       st2.intRd = st.intRd ∧ st2.extWr = st.extWr ∧
       (st.intWr.isEof = false →
         (st.extRd.isAborted = true → st2.intWr = st.intWr.abort) ∧
         (st.extRd.isAborted = false → st2.intWr = st.intWr.close)) ∧
       (st.intWr.isEof = true → st2.intWr = st.intWr))) ∧
    (st.extRd.hasPendingEof = true → st.extRd.isAborted = false →
     st.extRd.isEmpty = false → st.intRd.isDone = false →
     ∀ st2 a, step o true true st = .cont st2 a →
       st2.extRd.hasPendingEof = true) := by
  constructor
  · intro hw hf he hr hx
    have hstep : step o true true st =
        .cont { st with extRd := (st.extRd.consumeEof).1,
                        intWr := if !st.intWr.isEof then
                            (if (st.extRd.consumeEof).1.isAborted then
                              st.intWr.abort else st.intWr.close)
                          else st.intWr } .extEof := by
      unfold step
      rw [if_neg (by simp [hw]), if_neg (by simp [hf]),
        if_neg (by simp [he]), if_neg (by simp [hr]),
        if_pos (by simp [hx] : (true && extEofGuard st) = true)]
    refine ⟨⟨_, hstep⟩, ?_⟩
    intro st2 a h
    rw [hstep] at h
    simp only [StepRes.cont.injEq] at h
    obtain ⟨h1, _⟩ := h
    rw [← h1]
    refine ⟨hasPendingEof_consumeEof st.extRd, ?_, rfl, rfl, ?_, ?_⟩
    · exact isDone_consumeEof_of_pending st.extRd (extEofGuard_pending st hx)
    · intro hne
      constructor
      · intro hab
        simp only [hne]
        rw [isAborted_consumeEof, hab]
        rfl
      · intro hab
        simp only [hne]
        rw [isAborted_consumeEof, hab]
        rfl
    · intro heof
      simp only [heof]
      rfl
  · intro hpend hab hemp hdone st2 a h
    have hx : extEofGuard st = false := by
      unfold extEofGuard
      simp [hab, hemp, hdone]
    unfold step at h
    by_cases hw : wrGuard st = true
    · rw [if_pos hw] at h
      simp only [StepRes.cont.injEq] at h
      obtain ⟨h1, _⟩ := h
      rw [← h1]
      exact hpend
    · rw [if_neg hw] at h
      by_cases hf : feedGuard true st = true
      · rw [if_pos hf] at h
        simp only [StepRes.cont.injEq] at h
        obtain ⟨h1, _⟩ := h
        rw [← h1]
        exact hpend
      · rw [if_neg hf] at h
        by_cases he : intEofGuard true st = true
        · rw [if_pos he] at h
          by_cases ha : (st.intRd.consumeEof).1.isAborted = true
          · rw [if_pos ha] at h
            simp only [StepRes.cont.injEq] at h
            obtain ⟨h1, _⟩ := h
            rw [← h1]
            exact hpend
          · rw [if_neg ha] at h
            simp only [StepRes.cont.injEq] at h
            obtain ⟨h1, _⟩ := h
            rw [← h1]
            exact hpend
        · rw [if_neg he] at h
          by_cases hr : rdGuard st = true
          · rw [if_pos hr] at h
            cases hpp : o.procPackets st.eng st.extRd.data with
            | error msg => rw [hpp] at h; simp at h
            | ok pr =>
              rw [hpp] at h
              obtain ⟨e2, readLen⟩ := pr
              simp only at h
              have hca : st.extRd.consumeAll.hasPendingEof = true := by
                rw [hasPendingEof_consumeAll]
                exact hpend
              by_cases hif : (!st.intWr.isEof && readLen != 0) = true
              · rw [if_pos hif] at h
                cases hrp : o.readPlain e2 readLen with
                | mk e3 pr2 =>
                  rw [hrp] at h
                  cases pr2 with
                  | bytes xs =>
                    simp only [StepRes.cont.injEq] at h
                    obtain ⟨h1, _⟩ := h
                    rw [← h1]
                    exact hca
                  | wouldBlock =>
                    simp only [StepRes.cont.injEq] at h
                    obtain ⟨h1, _⟩ := h
                    rw [← h1]
                    exact hca
                  | unexpectedEof =>
                    simp only [StepRes.cont.injEq] at h
                    obtain ⟨h1, _⟩ := h
                    rw [← h1]
                    exact hca
                  | fatal msg => simp at h
              · rw [if_neg hif] at h
                simp only [StepRes.cont.injEq] at h
                obtain ⟨h1, _⟩ := h
                rw [← h1]
                exact hca
          · rw [if_neg hr] at h
            rw [if_neg (by simp [hx])] at h
            simp at h

/-- Witness for C2's amended theorem: at a concrete state with a pending
graceful external EOF and an empty external read end, the rule fires and
closes the internal write end; and at a state with ciphertext still unread,
a drain iteration leaves the EOF pending. -/
theorem c2_ext_eof_rule_witness :
    (∃ st2, step logOracle true true (mkSt c2pipes c2eng) =
      .cont st2 Act.extEof) ∧
    ({ extRd := pbSt [3] .Closing,
       extWr := { data := [9], consumed := 0, state := .Open },
       intRd := pbSt [] .Open, intWr := pbSt [] .Open,
       eng := { core := [], hs := true, wantsRead := false,
                pendingOut := [] } } : St (List (List Nat))).extRd.hasPendingEof
      = true := by
  constructor
  · exact ((c2_ext_eof_rule logOracle (mkSt c2pipes c2eng)).1 rfl rfl rfl rfl
      rfl).1
  · exact (c2_ext_eof_rule logOracle
      (mkSt { extRd := pbSt [3] .Closing, extWr := pbSt [] .Open,
              intRd := pbSt [] .Open, intWr := pbSt [] .Open }
        { core := [], hs := true, wantsRead := false,
          pendingOut := [9] })).2 rfl rfl rfl rfl
      { extRd := pbSt [3] .Closing,
        extWr := { data := [9], consumed := 0, state := .Open },
        intRd := pbSt [] .Open, intWr := pbSt [] .Open,
        eng := { core := [], hs := true, wantsRead := false,
                 pendingOut := [] } } Act.writeTls rfl

/-- Claim C3: with an engine configured and the handshake complete, when the
internal read end is empty with a pending end-of-stream, the call consumes
it; on abrupt termination it aborts the external write end directly and
never calls `send_close_notify`, on graceful close it calls
`send_close_notify` and does not abort the external write end. -/
theorem c3_internal_eof_handling (o : Oracle γ) (st : St γ)
    (hhs : st.eng.hs = false) (hemp : st.intRd.data = []) :
    (st.intRd.state = .Aborting →
      (run o true true st).1.intRd.state = .Aborted ∧
      (run o true true st).1.extWr.state = (st.extWr.abort).state ∧
      Act.intEofClose ∉ (run o true true st).2.2) ∧
    (st.intRd.state = .Closing →
      (run o true true st).1.intRd.state = .Closed ∧
      Act.intEofClose ∈ (run o true true st).2.2 ∧
      (run o true true st).1.extWr.isAborted = st.extWr.isAborted) := by
  exact c3_main o st hhs hemp

/-- Witness for C3 at concrete states: an abrupt internal EOF aborts the
external write end without `send_close_notify`; a graceful one consumes the
EOF, queues `send_close_notify` and leaves the external write end
unaborted. -/
theorem c3_internal_eof_handling_witness :
    ((run logOracle true true
        (mkSt { extRd := pbSt [] .Open, extWr := pbSt [] .Open,
                intRd := pbSt [] .Aborting, intWr := pbSt [] .Open }
          c2eng)).1.intRd.state = .Aborted ∧
     (run logOracle true true
        (mkSt { extRd := pbSt [] .Open, extWr := pbSt [] .Open,
                intRd := pbSt [] .Aborting, intWr := pbSt [] .Open }
          c2eng)).1.extWr.state = ((pbSt [] .Open).abort).state ∧
     Act.intEofClose ∉ (run logOracle true true
        (mkSt { extRd := pbSt [] .Open, extWr := pbSt [] .Open,
                intRd := pbSt [] .Aborting, intWr := pbSt [] .Open }
          c2eng)).2.2) ∧
    ((run logOracle true true
        (mkSt { extRd := pbSt [] .Open, extWr := pbSt [] .Open,
                intRd := pbSt [] .Closing, intWr := pbSt [] .Open }
          c2eng)).1.intRd.state = .Closed ∧
     Act.intEofClose ∈ (run logOracle true true
        (mkSt { extRd := pbSt [] .Open, extWr := pbSt [] .Open,
                intRd := pbSt [] .Closing, intWr := pbSt [] .Open }
          c2eng)).2.2 ∧
     (run logOracle true true
        (mkSt { extRd := pbSt [] .Open, extWr := pbSt [] .Open,
                intRd := pbSt [] .Closing, intWr := pbSt [] .Open }
          c2eng)).1.extWr.isAborted = (pbSt [] .Open).isAborted) := by
  constructor
  · exact (c3_internal_eof_handling logOracle
      (mkSt { extRd := pbSt [] .Open, extWr := pbSt [] .Open,
              intRd := pbSt [] .Aborting, intWr := pbSt [] .Open }
        c2eng) rfl rfl).1 rfl
  · exact (c3_internal_eof_handling logOracle
      (mkSt { extRd := pbSt [] .Open, extWr := pbSt [] .Open,
              intRd := pbSt [] .Closing, intWr := pbSt [] .Open }
        c2eng) rfl rfl).2 rfl

/-- Claim C6: in the ciphertext-feed step, an `UnexpectedEof` from copying
decoded plaintext into the internal write end aborts that end and the loop
continues (no error is returned); `WouldBlock` is ignored; any other error
is returned as the adapter error. -/
theorem c6_plain_copy_errors (o : Oracle γ) (st : St γ) (e2 : Eng γ)
    (readLen : Nat) (hw : wrGuard st = false) (hf : feedGuard true st = false)
    (he : intEofGuard true st = false) (hr : rdGuard st = true)
    (hpp : o.procPackets st.eng st.extRd.data = .ok (e2, readLen))
    (hlen : (readLen != 0) = true) (hiw : st.intWr.isEof = false) :
    (∀ e3, o.readPlain e2 readLen = (e3, .unexpectedEof) →
      step o true true st = .cont { st with extRd := st.extRd.consumeAll, eng := e3, intWr := st.intWr.abort } .readTls) ∧
    (∀ e3, o.readPlain e2 readLen = (e3, .wouldBlock) →
      step o true true st = .cont { st with extRd := st.extRd.consumeAll, eng := e3 } .readTls) ∧
    (∀ e3 msg, o.readPlain e2 readLen = (e3, .fatal msg) →
      step o true true st = .fail { st with extRd := st.extRd.consumeAll, eng := e3 } msg) := by
  have hstep : ∀ r : StepRes γ, (match o.readPlain e2 readLen with
      | (e3, .bytes xs) =>
          StepRes.cont { st with extRd := st.extRd.consumeAll, eng := e3, intWr := st.intWr.append xs } .readTls
      | (e3, .wouldBlock) =>
          StepRes.cont { st with extRd := st.extRd.consumeAll, eng := e3 } .readTls
      | (e3, .unexpectedEof) =>
          StepRes.cont { st with extRd := st.extRd.consumeAll, eng := e3, intWr := st.intWr.abort } .readTls
      | (e3, .fatal msg) =>
          StepRes.fail { st with extRd := st.extRd.consumeAll, eng := e3 } msg) = r →
      step o true true st = r := by
    intro r hrr
    unfold step
    rw [if_neg (by simp [hw]), if_neg (by simp [hf]), if_neg (by simp [he]),
      if_pos hr, hpp]
    simp only
    rw [if_pos (by simp [hiw, hlen])]
    exact hrr
  refine ⟨?_, ?_, ?_⟩
  · intro e3 hrp
    exact hstep _ (by rw [hrp])
  · intro e3 hrp
    exact hstep _ (by rw [hrp])
  · intro e3 msg hrp
    exact hstep _ (by rw [hrp])

/-- Witness for C6 at a concrete state and engine double: an
`UnexpectedEof` on the plaintext copy aborts the internal write end and the
loop continues. -/
theorem c6_plain_copy_errors_witness :
    step { feedPlain := fun e _ => e, closeNotify := fun e => e,
           procPackets := fun e _ => Except.ok (e, 1),
           readPlain := fun e _ => (e, PlainRead.unexpectedEof) }
      true true
      (mkSt { extRd := pbSt [5] .Open, extWr := pbSt [] .Open,
              intRd := pbSt [] .Open, intWr := pbSt [] .Open }
        { core := (), hs := true, wantsRead := true, pendingOut := [] })
      = .cont { extRd := (pbSt [5] .Open).consumeAll,
                extWr := pbSt [] .Open, intRd := pbSt [] .Open,
                intWr := (pbSt [] .Open).abort,
                eng := { core := (), hs := true, wantsRead := true,
                         pendingOut := [] } } .readTls := by
  exact (c6_plain_copy_errors
    { feedPlain := fun e _ => e, closeNotify := fun e => e,
      procPackets := fun e _ => Except.ok (e, 1),
      readPlain := fun e _ => (e, PlainRead.unexpectedEof) }
    (mkSt { extRd := pbSt [5] .Open, extWr := pbSt [] .Open,
            intRd := pbSt [] .Open, intWr := pbSt [] .Open }
      { core := (), hs := true, wantsRead := true, pendingOut := [] })
    { core := (), hs := true, wantsRead := true, pendingOut := [] } 1
    rfl rfl rfl rfl rfl rfl rfl).1
    { core := (), hs := true, wantsRead := true, pendingOut := [] } rfl

/-- Claim C7, counterexample: the internal read end is done and the engine
has nothing queued to write, yet `process` returns with the external write
end still open — the graceful close happens only inside the ciphertext-drain
step, which never fires here. -/
theorem c7_counterexample :
    c7pipes.intRd.isDone = true ∧ c1eng.wantsWrite = false ∧
    TlsClient.process logOracle (some c1eng) c7pipes =
      ((some c1eng, c7pipes), .ok false) ∧
    c7pipes.extWr.state = .Open := by
  exact ⟨rfl, rfl, rfl, rfl⟩

/-- Claim C7 (amended): the graceful close of the external write end happens
exactly as part of a firing ciphertext-drain step — after the drain, the
external write end is closed when the internal read end is done (the engine
then has nothing further queued), and only appended to otherwise. -/
theorem c7_close_after_drain (o : Oracle γ) (g x : Bool) (st : St γ)
    (hw : wrGuard st = true) :
    (st.intRd.isDone = true → step o g x st =
      .cont { st with extWr := (st.extWr.append st.eng.pendingOut).close,
                      eng := { st.eng with pendingOut := [] } } .writeTls) ∧
    (st.intRd.isDone = false → step o g x st =
      .cont { st with extWr := st.extWr.append st.eng.pendingOut,
                      eng := { st.eng with pendingOut := [] } } .writeTls) := by
  constructor
  · intro hd
    unfold step
    rw [if_pos hw]
    simp [hd, Eng.wantsWrite]
  · intro hd
    unfold step
    rw [if_pos hw]
    simp [hd, Eng.wantsWrite]

/-- Witness for C7's amended theorem: a drain with the internal read end
done closes the external write end right after appending the queued bytes. -/
theorem c7_close_after_drain_witness :
    step logOracle true true (mkSt c7pipes { c2eng with pendingOut := [9] })
      = .cont { extRd := pbSt [] .Open,
                extWr := ((pbSt [] .Open).append [9]).close,
                intRd := pbSt [] .Closed, intWr := pbSt [] .Open,
                eng := { c2eng with pendingOut := [] } } .writeTls := by
  exact (c7_close_after_drain logOracle true true
    (mkSt c7pipes { c2eng with pendingOut := [9] }) rfl).1 rfl

/-- Claim C10, counterexample: on the same engine state and pipes (pending
graceful external EOF, empty external read end), the `server.rs` variant
consumes the EOF and closes the internal write end reporting activity,
while the `lib.rs` variant does nothing and reports no activity — the two
are not equivalent. -/
theorem c10_counterexample :
    (TlsServer.process logOracle (some c2eng) c2pipes).2 = .ok true ∧
    (TlsServerLib.process logOracle (some c2eng) c2pipes).2 = .ok false ∧
    (TlsServer.process logOracle (some c2eng) c2pipes).1.2.extRd.state
      = .Closed ∧
    (TlsServerLib.process logOracle (some c2eng) c2pipes).1.2.extRd.state
      = .Closing ∧
    (TlsServer.process logOracle (some c2eng) c2pipes).1.2.intWr.state
      = .Closing ∧
    (TlsServerLib.process logOracle (some c2eng) c2pipes).1.2.intWr.state
      = .Open := by
  exact ⟨rfl, rfl, rfl, rfl, rfl, rfl⟩

/-- Claim C10 (amended): the two server variants are not equivalent; they
agree exactly where the differing code is inert — whenever the engine is
not handshaking and the external-EOF guard does not hold, the two loop
bodies take the same step. -/
theorem c10_step_agreement (o : Oracle γ) (st : St γ)
    (hhs : st.eng.hs = false) (hx : extEofGuard st = false) :
    step o true true st = step o false false st := by
  unfold step
  have h1 : feedGuard true st = feedGuard false st := by
    simp [feedGuard, hhs]
  have h2 : intEofGuard true st = intEofGuard false st := by
    simp [intEofGuard, hhs]
  simp only [h1, h2, Bool.true_and, Bool.false_and, hx]

/-- Witness for C10's amended theorem at a concrete state: both variants
take the same (exit) step. -/
theorem c10_step_agreement_witness :
    step logOracle true true (mkSt emptyPipes c2eng)
      = step logOracle false false (mkSt emptyPipes c2eng) := by
  exact c10_step_agreement logOracle (mkSt emptyPipes c2eng) rfl rfl

/-- Claim C4: every adapter variant's `process` (stream-style from
`client.rs`/`server.rs`/`lib.rs` via `procWith`, explicit-state from
`unbuf.rs` via `uProcess`, with or without an engine) that returns `Ok`
returns `true` exactly when the four-pipe-end snapshot after the call
differs from the snapshot before it. -/
theorem c4_activity :
    (∀ (γ : Type) (o : Oracle γ) (g x : Bool) (e? : Option (Eng γ))
      (p : Pipes) (r : Option (Eng γ) × Pipes) (b : Bool),
      procWith o g x e? p = (r, .ok b) →
      b = decide (¬ pSnap r.2 = pSnap p)) ∧
    (∀ (γ : Type) (o : UOracle γ) (isSrv : Bool) (c? : Option γ) (p : Pipes)
      (fuel : Nat) (r : Option γ × Pipes) (b : Bool),
      uProcess o isSrv c? p fuel = some (r, .ok b) →
      b = decide (¬ pSnap r.2 = pSnap p)) := by
  constructor
  · intro γ o g x e? p r b h
    exact procWith_activity o g x e? p r b h
  · intro γ o isSrv c? p fuel r b h
    unfold uProcess at h
    cases c? with
    | none =>
      simp only [Option.some.injEq] at h
      injection h with ha hb
      injection hb with hb
      rw [← hb, ← ha]
    | some c =>
      simp only at h
      by_cases hab : (p.intRd.isAborted || p.extRd.isAborted) = true
      · rw [if_pos hab] at h
        simp only [Option.some.injEq] at h
        injection h with ha hb
        injection hb with hb
        rw [← hb, ← ha]
      · rw [if_neg hab] at h
        cases hit : uIter o isSrv fuel (mkUSt p c) 0 with
        | none => rw [hit] at h; simp at h
        | some pr =>
          rw [hit] at h
          obtain ⟨st2, err⟩ := pr
          cases err with
          | some msg => simp at h
          | none =>
            simp only [Option.some.injEq] at h
            injection h with ha hb
            injection hb with hb
            rw [← hb, ← ha]

/-- Witness for C4 at concrete inputs: a pass-through call and an
explicit-state call on empty pipes both report no activity, matching their
unchanged snapshots. -/
theorem c4_activity_witness :
    (false = decide (¬ pSnap ((none, passProcess emptyPipes) :
        Option (Eng (List (List Nat))) × Pipes).2 = pSnap emptyPipes)) ∧
    (false = decide (¬ pSnap ((some (), USt.pipes (mkUSt emptyPipes ())) :
        Option Unit × Pipes).2 = pSnap emptyPipes)) := by
  constructor
  · exact c4_activity.1 (List (List Nat)) logOracle true true none emptyPipes
      (none, passProcess emptyPipes) false rfl
  · exact c4_activity.2 Unit blockedOracle true (some ()) emptyPipes 1
      (some (), USt.pipes (mkUSt emptyPipes ())) false rfl

theorem data_consumeEof (b : PBuf) : (b.consumeEof).1.data = b.data := by
  unfold PBuf.consumeEof
  cases h : b.state <;> simp [h]

/-- Claim C5: on the explicit-state adapter with an engine, if either read
end is in an abrupt-termination state at entry, `process` (for any fuel)
skips the engine loop entirely: both read ends are drained and their
pending end-of-streams consumed, each unfinished write end is aborted,
finished write ends and the engine core are untouched. -/
theorem c5_abort_shortcut (o : UOracle γ) (isSrv : Bool) (c : γ) (p : Pipes)
    (fuel : Nat) (h : (p.intRd.isAborted || p.extRd.isAborted) = true) :
    uProcess o isSrv (some c) p fuel =
      some ((some c, uShortcut p),
        .ok (decide (¬ pSnap (uShortcut p) = pSnap p))) ∧
    (uShortcut p).extRd.data = [] ∧ (uShortcut p).intRd.data = [] ∧
    (uShortcut p).extRd.hasPendingEof = false ∧
    (uShortcut p).intRd.hasPendingEof = false ∧
    (p.extWr.isEof = false → (uShortcut p).extWr = p.extWr.abort) ∧
    (p.extWr.isEof = true → (uShortcut p).extWr = p.extWr) ∧
    (p.intWr.isEof = false → (uShortcut p).intWr = p.intWr.abort) ∧
    (p.intWr.isEof = true → (uShortcut p).intWr = p.intWr) := by
  refine ⟨?_, ?_, ?_, ?_, ?_, ?_, ?_, ?_, ?_⟩
  · unfold uProcess
    dsimp only
    rw [if_pos h]
  · rw [show (uShortcut p).extRd = ((p.extRd.consumeAll).consumeEof).1
      from rfl, data_consumeEof]
    rfl
  · rw [show (uShortcut p).intRd = ((p.intRd.consumeAll).consumeEof).1
      from rfl, data_consumeEof]
    rfl
  · exact hasPendingEof_consumeEof _
  · exact hasPendingEof_consumeEof _
  · intro h2
    unfold uShortcut
    simp [h2]
  · intro h2
    unfold uShortcut
    simp [h2]
  · intro h2
    unfold uShortcut
    simp [h2]
  · intro h2
    unfold uShortcut
    simp [h2]

/-- Witness for C5 at a concrete state: an aborted internal read end with a
pending abrupt EOF and one unread byte is fully drained and both open write
ends are aborted, with the engine untouched. -/
theorem c5_abort_shortcut_witness :
    uProcess blockedOracle true (some ()) { extRd := pbSt [] .Open, extWr := pbSt [] .Open, intRd := pbSt [4] .Aborting, intWr := pbSt [] .Open } 0 =
      some ((some (), uShortcut { extRd := pbSt [] .Open, extWr := pbSt [] .Open, intRd := pbSt [4] .Aborting, intWr := pbSt [] .Open }),
        .ok (decide (¬ pSnap (uShortcut { extRd := pbSt [] .Open, extWr := pbSt [] .Open, intRd := pbSt [4] .Aborting, intWr := pbSt [] .Open }) = pSnap { extRd := pbSt [] .Open, extWr := pbSt [] .Open, intRd := pbSt [4] .Aborting, intWr := pbSt [] .Open }))) := by
  exact (c5_abort_shortcut blockedOracle true ()
    { extRd := pbSt [] .Open, extWr := pbSt [] .Open, intRd := pbSt [4] .Aborting, intWr := pbSt [] .Open }
    0 rfl).1

/-- One divergent iteration: with `divOracle` on `c8pipes` the loop body
returns to exactly the same state. -/
theorem c8_div_step : uStep divOracle true (mkUSt c8pipes ()) 0 =
    .cont (mkUSt c8pipes ()) 0 := rfl

/-- The `process!` loop never exits on the divergent state, for any fuel. -/
theorem c8_div_iter : ∀ fuel,
    uIter divOracle true fuel (mkUSt c8pipes ()) 0 = none := by
  intro fuel
  induction fuel with
  | zero => rfl
  | succ n ih =>
    unfold uIter
    rw [c8_div_step]
    exact ih

/-- Claim C8 (code bug): the gated stream loop does exit within `M st + 1`
iterations for every engine oracle and state, but the explicit-state
`process!` loop can loop forever: with an engine that keeps reporting
`WriteTraffic` (the steady state of an established connection) and the
external write end at EOF while the internal read end holds unread data and
is not closing, `process` never returns, whatever the fuel. -/
theorem c8_termination :
    (∀ fuel, uProcess divOracle true (some ()) c8pipes fuel = none) ∧
    (∀ (γ : Type) (o : Oracle γ) (g x : Bool) (st : St γ),
      (runIter o g x (M st + 1) st).isSome = true) := by
  constructor
  · intro fuel
    unfold uProcess
    dsimp only
    rw [if_neg (by decide), c8_div_iter fuel]
  · intro γ o g x st
    exact runIter_isSome o g x (M st + 1) st (by omega)

/-! ### No-activity analysis for the explicit-state loop -/

theorem bMeas_consume_le (b : PBuf) (n : Nat) :
    bMeas b ≤ bMeas (b.consume n) := by
  unfold bMeas PBuf.consume
  simp [List.length_drop]
  rcases Nat.le_total n b.data.length with hl | hl
  · rw [Nat.min_eq_left hl]
    omega
  · rw [Nat.min_eq_right hl]
    omega

theorem bMeas_push_le (b : PBuf) : bMeas b ≤ bMeas b.push := by
  unfold bMeas PBuf.push
  cases h : b.state <;> simp [rank, h]

theorem consumeEof_true_pending (b : PBuf) (h : (b.consumeEof).2 = true) :
    b.hasPendingEof = true := by
  unfold PBuf.consumeEof at h
  unfold PBuf.hasPendingEof
  cases h2 : b.state <;> rw [h2] at h <;> simp_all

theorem consumeEof_false_pending (b : PBuf) (h : (b.consumeEof).2 = false) :
    b.hasPendingEof = false := by
  unfold PBuf.consumeEof at h
  unfold PBuf.hasPendingEof
  cases h2 : b.state <;> rw [h2] at h <;> simp_all

theorem bMeas_condClose_le (b : PBuf) :
    bMeas b ≤ bMeas (if !b.isEof then b.close else b) := by
  split
  · exact bMeas_close_le b
  · exact Nat.le_refl _

theorem bMeas_condAbortClose_le (b : PBuf) (c : Bool) :
    bMeas b ≤ bMeas (if c = true then b.abort else b.close) := by
  cases c
  · simp only [Bool.false_eq_true, if_false]
    exact bMeas_close_le b
  · simp only [if_true]
    exact bMeas_abort_le b

theorem isEof_close_of_not (b : PBuf) (h : b.isEof = false) :
    (b.close).isEof = true := by
  unfold PBuf.isEof at h ⊢
  unfold PBuf.close
  cases h2 : b.state <;> rw [h2] at h <;> simp_all

theorem isEof_condClose (b : PBuf) :
    (if !b.isEof then b.close else b).isEof = true ∨
    (if !b.isEof then b.close else b) = b := by
  by_cases h : b.isEof = true
  · right
    simp [h]
  · left
    have h2 : b.isEof = false := by simpa using h
    simp [h2]
    exact isEof_close_of_not b h2

theorem bMeas_condAppend_le (b : PBuf) (xs : List Nat) :
    bMeas b ≤ bMeas (if !b.isEof then b.append xs else b) := by
  split
  · exact bMeas_append_le b xs
  · exact Nat.le_refl _

theorem bMeas_condAppendClose_le (b : PBuf) (xs : List Nat) (c : Bool) :
    bMeas b ≤ bMeas (if c = true then (b.append xs).close else b) := by
  cases c
  · simp only [Bool.false_eq_true, if_false]
    exact Nat.le_refl _
  · simp only [if_true]
    exact Nat.le_trans (bMeas_append_le b xs) (bMeas_close_le _)

/-- Every outcome of the loop body weakly increases the pipe measure. -/
theorem uBody_mono (o : UOracle γ) (isSrv : Bool) (st : USt γ)
    (r : UStepRes γ) (hr : uBody o isSrv st = r) :
    uMeas st ≤ uMeas (resSt r) := by
  unfold uBody at hr
  dsimp only at hr
  by_cases hC : (st.extRd.isEmpty && (st.extRd.consumeEof).2) = true
  · rw [if_pos hC] at hr
    have h1 := bMeas_consumeEof_le st.extRd
    have h2 := bMeas_condClose_le st.intWr
    by_cases hrce : (st.intRd.consumeEof).2 = true
    · rw [if_pos hrce] at hr
      have h3 : bMeas st.intRd ≤
          bMeas (((st.intRd.consumeEof).1).consumeAll) :=
        Nat.le_trans (bMeas_consumeEof_le st.intRd) (bMeas_consumeAll_le _)
      have h4 := bMeas_condAbortClose_le st.extWr
        ((((st.intRd.consumeEof).1).consumeAll).isAborted)
      rw [← hr]
      simp only [resSt, uMeas]
      omega
    · rw [if_neg hrce] at hr
      rw [← hr]
      simp only [resSt, uMeas]
      omega
  · rw [if_neg hC] at hr
    rcases hp : o.ptr st.core st.extRd.data with ⟨c2, d2, res⟩
    rw [hp] at hr
    have hcons := bMeas_consume_le st.extRd d2
    cases res with
    | error msg =>
      rw [← hr]
      simp only [resSt, uMeas]
      omega
    | ok tag =>
      cases tag with
      | readTraffic recs rerr =>
        dsimp only at hr
        have h2 := bMeas_append_le st.intWr (recs.map Prod.fst).flatten
        cases rerr <;> rw [← hr] <;> simp only [resSt, uMeas] <;> omega
      | readEarly recs rerr =>
        dsimp only at hr
        have h2 := bMeas_append_le st.intWr (recs.map Prod.fst).flatten
        cases isSrv with
        | false =>
          rw [if_neg (by simp)] at hr
          rw [← hr]
          simp only [resSt, uMeas]
          omega
        | true =>
          rw [if_pos rfl] at hr
          cases rerr <;> rw [← hr] <;> simp only [resSt, uMeas] <;> omega
      | closed =>
        dsimp only at hr
        have h2 := bMeas_condClose_le st.intWr
        by_cases hrce : (st.intRd.consumeEof).2 = true
        · rw [if_pos hrce] at hr
          have h3 : bMeas st.intRd ≤
              bMeas (((st.intRd.consumeEof).1).consumeAll) :=
            Nat.le_trans (bMeas_consumeEof_le st.intRd)
              (bMeas_consumeAll_le _)
          have h4 := bMeas_condAbortClose_le st.extWr
            ((((st.intRd.consumeEof).1).consumeAll).isAborted)
          rw [← hr]
          simp only [resSt, uMeas]
          omega
        · rw [if_neg hrce] at hr
          rw [← hr]
          simp only [resSt, uMeas]
          omega
      | encodeTls res2 =>
        dsimp only at hr
        cases res2 with
        | error msg =>
          rw [← hr]
          simp only [resSt, uMeas]
          omega
        | ok bytes =>
          dsimp only at hr
          have h2 := bMeas_condAppend_le st.extWr bytes
          rw [← hr]
          simp only [resSt, uMeas]
          omega
      | transmit c3 =>
        dsimp only at hr
        have h2 := bMeas_push_le st.extWr
        rw [← hr]
        simp only [resSt, uMeas]
        omega
      | blocked =>
        rw [← hr]
        simp only [resSt, uMeas]
        omega
      | writeTraffic enc qc =>
        dsimp only at hr
        by_cases hBrk : ((st.intRd.data.length == 0) &&
            !(st.intRd.state == PBufState.Closing)) = true
        · rw [if_pos hBrk] at hr
          rw [← hr]
          simp only [resSt, uMeas]
          omega
        · rw [if_neg hBrk] at hr
          by_cases hE : ((st.intRd.data.length != 0) && !st.extWr.isEof)
              = true
          · rw [if_pos hE] at hr
            cases henc : enc st.intRd.data with
            | error msg =>
              rw [henc] at hr
              dsimp only [Except.map] at hr
              rw [← hr]
              simp only [resSt, uMeas]
              omega
            | ok v =>
              rw [henc] at hr
              obtain ⟨c3, cipher⟩ := v
              dsimp only [Except.map] at hr
              have hEw := bMeas_append_le st.extWr cipher
              have hIr := bMeas_consumeAll_le st.intRd
              by_cases hCl : (st.intRd.state == PBufState.Closing) = true
              · rw [if_pos hCl] at hr
                have hIr2 : bMeas st.intRd ≤
                    bMeas (((st.intRd.consumeAll).consumeEof).1) :=
                  Nat.le_trans (bMeas_consumeAll_le st.intRd)
                    (bMeas_consumeEof_le _)
                cases hqc : qc c3 with
                | error msg =>
                  rw [hqc] at hr
                  rw [← hr]
                  simp only [resSt, uMeas]
                  omega
                | ok w =>
                  rw [hqc] at hr
                  obtain ⟨c4, cn⟩ := w
                  dsimp only at hr
                  have hEw2 := bMeas_condAppendClose_le
                    (st.extWr.append cipher) cn (!st.extWr.isEof)
                  rw [← hr]
                  simp only [resSt, uMeas]
                  omega
              · rw [if_neg hCl] at hr
                rw [← hr]
                simp only [resSt, uMeas]
                omega
          · rw [if_neg hE] at hr
            dsimp only at hr
            by_cases hCl : (st.intRd.state == PBufState.Closing) = true
            · rw [if_pos hCl] at hr
              have hIr2 := bMeas_consumeEof_le st.intRd
              cases hqc : qc c2 with
              | error msg =>
                rw [hqc] at hr
                rw [← hr]
                simp only [resSt, uMeas]
                omega
              | ok w =>
                rw [hqc] at hr
                obtain ⟨c4, cn⟩ := w
                dsimp only at hr
                have hEw2 := bMeas_condAppendClose_le st.extWr cn
                  (!st.extWr.isEof)
                rw [← hr]
                simp only [resSt, uMeas]
                omega
            · rw [if_neg hCl] at hr
              rw [← hr]
              simp only [resSt, uMeas]
              omega
      | unexpected desc =>
        rw [← hr]
        simp only [resSt, uMeas]
        omega

theorem uStep_zero (o : UOracle γ) (isSrv : Bool) (st : USt γ) :
    uStep o isSrv st 0 = uBody o isSrv st := by
  unfold uStep
  rw [consume_zero]

theorem isEof_condClose_true (b : PBuf) :
    (if !b.isEof then b.close else b).isEof = true := by
  by_cases h : b.isEof = true
  · simp [h]
  · have h2 : b.isEof = false := by simpa using h
    simp [h2]
    exact isEof_close_of_not b h2

/-- Measure monotonicity along the fueled `process!` loop. -/
theorem uIter_mono (o : UOracle γ) (isSrv : Bool) :
    ∀ n (st : USt γ) d st3 err,
      uIter o isSrv n st d = some (st3, err) → uMeas st ≤ uMeas st3 := by
  intro n
  induction n with
  | zero => intro st d st3 err h; simp [uIter] at h
  | succ n ih =>
    intro st d st3 err h
    unfold uIter at h
    have htop : uMeas st ≤ uMeas { st with extRd := st.extRd.consume d } := by
      have := bMeas_consume_le st.extRd d
      simp only [uMeas]
      omega
    cases hs : uStep o isSrv st d with
    | brk st2 =>
      rw [hs] at h
      injection h with h2
      have h3 := uBody_mono o isSrv { st with extRd := st.extRd.consume d }
        (.brk st2) hs
      simp only [resSt] at h3
      have h4 : st2 = st3 := congrArg Prod.fst h2
      rw [← h4]
      omega
    | fail st2 msg =>
      rw [hs] at h
      injection h with h2
      have h3 := uBody_mono o isSrv { st with extRd := st.extRd.consume d }
        (.fail st2 msg) hs
      simp only [resSt] at h3
      have h4 : st2 = st3 := congrArg Prod.fst h2
      rw [← h4]
      omega
    | cont st2 d2 =>
      rw [hs] at h
      have h3 := uBody_mono o isSrv { st with extRd := st.extRd.consume d }
        (.cont st2 d2) hs
      simp only [resSt] at h3
      have h5 := ih st2 d2 st3 err h
      omega

/-- Replay: a break iteration of the loop body that did not increase the
measure leaves a state from which one more iteration immediately breaks
again without change, given the stability of the break-causing engine
states. -/
theorem uBody_brk_replay (o : UOracle γ) (isSrv : Bool) (hS : UStable o)
    (stM st2 : USt γ) (h : uBody o isSrv stM = .brk st2)
    (hm : uMeas st2 ≤ uMeas stM) :
    uStep o isSrv st2 0 = .brk st2 := by
  rw [uStep_zero]
  unfold uBody at h
  dsimp only at h
  by_cases hC : (stM.extRd.isEmpty && (stM.extRd.consumeEof).2) = true
  · exfalso
    rw [if_pos hC] at h
    have hpend : stM.extRd.hasPendingEof = true := by
      rw [Bool.and_eq_true] at hC
      exact consumeEof_true_pending _ hC.2
    have h1 := bMeas_consumeEof_lt stM.extRd hpend
    have h2 := bMeas_condClose_le stM.intWr
    by_cases hrce : (stM.intRd.consumeEof).2 = true
    · rw [if_pos hrce] at h
      have h3 : bMeas stM.intRd ≤
          bMeas (((stM.intRd.consumeEof).1).consumeAll) :=
        Nat.le_trans (bMeas_consumeEof_le _) (bMeas_consumeAll_le _)
      have h4 := bMeas_condAbortClose_le stM.extWr
        ((((stM.intRd.consumeEof).1).consumeAll).isAborted)
      injection h with h5
      rw [← h5] at hm
      simp only [uMeas] at hm
      omega
    · rw [if_neg hrce] at h
      injection h with h5
      rw [← h5] at hm
      simp only [uMeas] at hm
      omega
  · rw [if_neg hC] at h
    rcases hp : o.ptr stM.core stM.extRd.data with ⟨c2, d2, res⟩
    rw [hp] at h
    cases res with
    | error msg => simp at h
    | ok tag =>
      cases tag with
      | readTraffic recs rerr =>
        dsimp only at h
        cases rerr <;> simp at h
      | readEarly recs rerr =>
        dsimp only at h
        cases isSrv with
        | false =>
          rw [if_neg (by simp)] at h
          simp at h
        | true =>
          rw [if_pos rfl] at h
          cases rerr <;> simp at h
      | closed =>
        dsimp only at h
        obtain ⟨hB, hCl, hW⟩ := hS
        obtain ⟨hc, hd⟩ := hCl stM.core stM.extRd.data c2 d2 hp
        subst hc
        subst hd
        have h6 : ((if !stM.intWr.isEof then stM.intWr.close
            else stM.intWr)).isEof = true := isEof_condClose_true stM.intWr
        by_cases hrce : (stM.intRd.consumeEof).2 = true
        · rw [if_pos hrce] at h
          injection h with h5
          rw [← h5]
          rw [consume_zero]
          have h7 : (((stM.intRd.consumeEof).1).consumeAll).hasPendingEof
              = false := by
            rw [hasPendingEof_consumeAll]
            exact hasPendingEof_consumeEof _
          unfold uBody
          dsimp only
          rw [if_neg hC, hp]
          dsimp only
          rw [consumeEof_not_pending _ h7]
          dsimp only
          rw [h6]
          rw [consume_zero]
          simp
        · rw [if_neg hrce] at h
          injection h with h5
          rw [← h5]
          rw [consume_zero]
          unfold uBody
          dsimp only
          rw [if_neg hC, hp]
          dsimp only
          rw [if_neg hrce]
          rw [h6]
          rw [consume_zero]
          simp
      | encodeTls res2 =>
        dsimp only at h
        cases res2 with
        | error msg => simp at h
        | ok bytes => simp at h
      | transmit c3 => simp at h
      | blocked =>
        dsimp only at h
        obtain ⟨hB, hCl, hW⟩ := hS
        obtain ⟨hc, hd⟩ := hB stM.core stM.extRd.data c2 d2 hp
        subst hc
        subst hd
        injection h with h5
        rw [← h5]
        rw [consume_zero]
        unfold uBody
        dsimp only
        rw [if_neg hC, hp]
        dsimp only
        rw [consume_zero]
      | writeTraffic enc qc =>
        dsimp only at h
        obtain ⟨hB, hCl, hW⟩ := hS
        obtain ⟨hc, hd⟩ := hW stM.core stM.extRd.data c2 d2 enc qc hp
        subst hc
        subst hd
        by_cases hBrk : ((stM.intRd.data.length == 0) &&
            !(stM.intRd.state == PBufState.Closing)) = true
        · rw [if_pos hBrk] at h
          injection h with h5
          rw [← h5]
          rw [consume_zero]
          unfold uBody
          dsimp only
          rw [if_neg hC, hp]
          dsimp only
          rw [if_pos hBrk]
          rw [consume_zero]
        · rw [if_neg hBrk] at h
          by_cases hE : ((stM.intRd.data.length != 0) && !stM.extWr.isEof)
              = true
          · rw [if_pos hE] at h
            cases henc : enc stM.intRd.data with
            | error msg =>
              rw [henc] at h
              dsimp only [Except.map] at h
              simp at h
            | ok v =>
              rw [henc] at h
              obtain ⟨c3, cipher⟩ := v
              dsimp only [Except.map] at h
              by_cases hCl2 : (stM.intRd.state == PBufState.Closing) = true
              · rw [if_pos hCl2] at h
                cases hqc : qc c3 with
                | error msg => rw [hqc] at h; simp at h
                | ok w =>
                  rw [hqc] at h
                  obtain ⟨c4, cn⟩ := w
                  simp at h
              · rw [if_neg hCl2] at h
                simp at h
          · rw [if_neg hE] at h
            dsimp only at h
            by_cases hCl2 : (stM.intRd.state == PBufState.Closing) = true
            · rw [if_pos hCl2] at h
              cases hqc : qc (stM.core) with
              | error msg => rw [hqc] at h; simp at h
              | ok w =>
                rw [hqc] at h
                obtain ⟨c4, cn⟩ := w
                simp at h
            · rw [if_neg hCl2] at h
              simp at h
      | unexpected desc => simp at h

/-- The final state of a clean (`Ok`) run that gained no measure is a state
from which one more iteration immediately breaks without change. -/
theorem uIter_last (o : UOracle γ) (isSrv : Bool) (hS : UStable o) :
    ∀ n (st : USt γ) d st3, uIter o isSrv n st d = some (st3, none) →
      uMeas st3 ≤ uMeas st → uStep o isSrv st3 0 = .brk st3 := by
  intro n
  induction n with
  | zero => intro st d st3 h hm; simp [uIter] at h
  | succ n ih =>
    intro st d st3 h hm
    unfold uIter at h
    have htop : uMeas st ≤ uMeas { st with extRd := st.extRd.consume d } := by
      have := bMeas_consume_le st.extRd d
      simp only [uMeas]
      omega
    cases hs : uStep o isSrv st d with
    | brk st2 =>
      rw [hs] at h
      injection h with h2
      have h4 : st2 = st3 := congrArg Prod.fst h2
      rw [← h4] at hm ⊢
      exact uBody_brk_replay o isSrv hS { st with extRd := st.extRd.consume d }
        st2 hs (by omega)
    | fail st2 msg =>
      rw [hs] at h
      injection h with h2
      have h5 := congrArg Prod.snd h2
      simp at h5
    | cont st2 d2 =>
      rw [hs] at h
      have h3 := uBody_mono o isSrv { st with extRd := st.extRd.consume d }
        (.cont st2 d2) hs
      simp only [resSt] at h3
      have h5 := uIter_mono o isSrv n st2 d2 st3 none h
      exact ih st2 d2 st3 h (by omega)

theorem trip_state_eq (b c : PBuf) (h : b.trip = c.trip) :
    b.state = c.state := by
  unfold PBuf.trip at h
  injection h with h1 h2 h3

theorem isAborted_eq_of_trip (b c : PBuf) (h : b.trip = c.trip) :
    b.isAborted = c.isAborted := by
  unfold PBuf.isAborted
  rw [trip_state_eq b c h]

theorem pSnap_parts (p q : Pipes) (h : pSnap p = pSnap q) :
    p.extRd.trip = q.extRd.trip ∧ p.extWr.trip = q.extWr.trip ∧
    p.intRd.trip = q.intRd.trip ∧ p.intWr.trip = q.intWr.trip := by
  unfold pSnap at h
  simp only [Prod.mk.injEq] at h
  exact ⟨h.1, h.2.1, h.2.2.1, h.2.2.2⟩

theorem uMeas_of_pSnap (st st2 : USt γ)
    (h : pSnap st.pipes = pSnap st2.pipes) : uMeas st = uMeas st2 := by
  obtain ⟨h1, h2, h3, h4⟩ := pSnap_parts _ _ h
  unfold USt.pipes at h1 h2 h3 h4
  simp only at h1 h2 h3 h4
  unfold uMeas
  rw [bMeas_of_trip _ _ h1, bMeas_of_trip _ _ h2, bMeas_of_trip _ _ h3,
    bMeas_of_trip _ _ h4]

theorem isEof_condAbort (b : PBuf) :
    (if !b.isEof then b.abort else b).isEof = true := by
  by_cases h : b.isEof = true
  · simp [h]
  · have h2 : b.isEof = false := by simpa using h
    simp [h2]
    exact isEof_abort b

/-- The abort shortcut is idempotent. -/
theorem uShortcut_idem (p : Pipes) : uShortcut (uShortcut p) = uShortcut p := by
  unfold uShortcut
  dsimp only
  have hrd : ∀ b : PBuf,
      ((((((b.consumeAll).consumeEof).1).consumeAll).consumeEof).1)
        = ((b.consumeAll).consumeEof).1 := by
    intro b
    have h1 : (((b.consumeAll).consumeEof).1).data = [] := by
      rw [data_consumeEof]
      rfl
    have h2 := hasPendingEof_consumeEof (b.consumeAll)
    rw [consumeAll_nil _ h1, consumeEof_not_pending _ h2]
  have hwr : ∀ b : PBuf,
      (if !(if !b.isEof then b.abort else b).isEof
       then (if !b.isEof then b.abort else b).abort
       else (if !b.isEof then b.abort else b))
        = (if !b.isEof then b.abort else b) := by
    intro b
    rw [isEof_condAbort b]
    simp
  rw [hrd p.extRd, hrd p.intRd, hwr p.extWr, hwr p.intWr]

theorem mkUSt_pipes (st : USt γ) : mkUSt (USt.pipes st) st.core = st := rfl

/-- Claim C9: a `process` call that reports no activity changed nothing,
and an immediate second call again reports no activity and changes
nothing.  Covers the stream-style adapters (engine or pass-through mode),
the explicit-state adapter with an engine (under the stability of the
break-causing engine states, for any sufficient fuel) and its pass-through
mode. -/
theorem c9_noop_idempotent :
    (∀ (γ : Type) (o : Oracle γ) (g x : Bool) (e? : Option (Eng γ))
      (p : Pipes) (e2 : Option (Eng γ)) (p2 : Pipes),
      procWith o g x e? p = ((e2, p2), .ok false) →
      p2 = p ∧ e2 = e? ∧ procWith o g x e2 p2 = ((e2, p2), .ok false)) ∧
    (∀ (γ : Type) (o : UOracle γ) (isSrv : Bool) (c : γ) (p : Pipes)
      (fuel : Nat) (c2 : γ) (p2 : Pipes), UStable o →
      uProcess o isSrv (some c) p fuel = some ((some c2, p2), .ok false) →
      pSnap p2 = pSnap p ∧ ∀ fuel2, 1 ≤ fuel2 →
        uProcess o isSrv (some c2) p2 fuel2 =
          some ((some c2, p2), .ok false)) ∧
    (∀ (γ : Type) (o : UOracle γ) (isSrv : Bool) (p : Pipes) (fuel : Nat)
      (p2 : Pipes),
      uProcess o isSrv none p fuel = some ((none, p2), .ok false) →
      p2 = p ∧ uProcess o isSrv none p2 fuel =
        some ((none, p2), .ok false)) := by
  refine ⟨?_, ?_, ?_⟩
  · intro γ o g x e? p e2 p2 h
    obtain ⟨hp, he⟩ := procWith_ok_false o g x e? p e2 p2 h
    refine ⟨hp, he, ?_⟩
    rw [hp, he] at h ⊢
    exact h
  · intro γ o isSrv c p fuel c2 p2 hS h
    unfold uProcess at h
    dsimp only at h
    by_cases hab : (p.intRd.isAborted || p.extRd.isAborted) = true
    · rw [if_pos hab] at h
      simp only [Option.some.injEq] at h
      have hc2 : some c = some c2 :=
        congrArg Prod.fst (congrArg Prod.fst h)
      have hp2 : uShortcut p = p2 :=
        congrArg Prod.snd (congrArg Prod.fst h)
      have hb := congrArg Prod.snd h
      injection hb with hb
      have hsnap : pSnap (uShortcut p) = pSnap p := by
        by_contra hne
        rw [decide_eq_false_iff_not] at hb
        exact hb hne
      rw [hp2] at hsnap
      refine ⟨hsnap, ?_⟩
      intro fuel2 hf2
      have hab2 : (p2.intRd.isAborted || p2.extRd.isAborted) = true := by
        obtain ⟨q1, q2, q3, q4⟩ := pSnap_parts _ _ hsnap
        rw [isAborted_eq_of_trip _ _ q3, isAborted_eq_of_trip _ _ q1]
        exact hab
      unfold uProcess
      dsimp only
      rw [if_pos hab2]
      have hshort2 : uShortcut p2 = p2 := by
        rw [← hp2]
        exact uShortcut_idem p
      rw [hshort2]
      simp
    · rw [if_neg hab] at h
      cases hit : uIter o isSrv fuel (mkUSt p c) 0 with
      | none => rw [hit] at h; simp at h
      | some pr =>
        rw [hit] at h
        obtain ⟨st3, err⟩ := pr
        cases err with
        | some msg => simp at h
        | none =>
          simp only [Option.some.injEq] at h
          have hc2 : some st3.core = some c2 :=
            congrArg Prod.fst (congrArg Prod.fst h)
          have hp2 : USt.pipes st3 = p2 :=
            congrArg Prod.snd (congrArg Prod.fst h)
          have hb := congrArg Prod.snd h
          injection hb with hb
          have hsnap : pSnap (USt.pipes st3) = pSnap p := by
            by_contra hne
            rw [decide_eq_false_iff_not] at hb
            exact hb hne
          have hsnap2 : pSnap p2 = pSnap p := by rw [← hp2]; exact hsnap
          refine ⟨hsnap2, ?_⟩
          intro fuel2 hf2
          have hmeq : uMeas st3 = uMeas (mkUSt p c) := by
            apply uMeas_of_pSnap
            rw [show USt.pipes (mkUSt p c) = p from rfl]
            exact hsnap
          have hreplay := uIter_last o isSrv hS fuel (mkUSt p c) 0 st3 hit
            (Nat.le_of_eq hmeq)
          have hab2 : (p2.intRd.isAborted || p2.extRd.isAborted) = false := by
            obtain ⟨q1, q2, q3, q4⟩ := pSnap_parts _ _ hsnap2
            rw [isAborted_eq_of_trip _ _ q3, isAborted_eq_of_trip _ _ q1]
            simpa using hab
          unfold uProcess
          dsimp only
          rw [if_neg (by simp [hab2])]
          injection hc2 with hc2
          rw [← hc2, ← hp2, mkUSt_pipes]
          cases fuel2 with
          | zero => omega
          | succ m =>
            unfold uIter
            rw [hreplay]
            simp
  · intro γ o isSrv p fuel p2 h
    unfold uProcess at h
    dsimp only at h
    simp only [Option.some.injEq] at h
    have hp2 : passProcess p = p2 :=
      congrArg Prod.snd (congrArg Prod.fst h)
    have hb := congrArg Prod.snd h
    injection hb with hb
    have hsnap : pSnap (passProcess p) = pSnap p := by
      by_contra hne
      rw [decide_eq_false_iff_not] at hb
      exact hb hne
    have hpp := passProcess_noop p hsnap
    have hp2b : p2 = p := by rw [← hp2, hpp]
    refine ⟨hp2b, ?_⟩
    rw [hp2b]
    unfold uProcess
    dsimp only
    rw [hpp]
    simp

/-- Witness for C9 at concrete inputs: a pass-through call, an engine-loop
call reporting `BlockedHandshake`, and a pass-through explicit-state call,
all on empty pipes, report no activity twice. -/
theorem c9_noop_idempotent_witness :
    (emptyPipes = emptyPipes ∧ (none : Option (Eng (List (List Nat)))) = none ∧
      procWith logOracle true true none emptyPipes =
        ((none, emptyPipes), .ok false)) ∧
    (pSnap emptyPipes = pSnap emptyPipes ∧ ∀ fuel2, 1 ≤ fuel2 →
      uProcess blockedOracle true (some ()) emptyPipes fuel2 =
        some ((some (), emptyPipes), .ok false)) ∧
    (emptyPipes = emptyPipes ∧
      uProcess blockedOracle true (none : Option Unit) emptyPipes 1 =
        some ((none, emptyPipes), .ok false)) := by
  have hstable : UStable blockedOracle := by
    refine ⟨?_, ?_, ?_⟩
    · intro c d c2 d2 hp
      simp [blockedOracle] at hp
      exact ⟨rfl, hp.symm⟩
    · intro c d c2 d2 hp
      simp [blockedOracle] at hp
    · intro c d c2 d2 enc qc hp
      simp [blockedOracle] at hp
  refine ⟨?_, ?_, ?_⟩
  · exact c9_noop_idempotent.1 (List (List Nat)) logOracle true true none
      emptyPipes none emptyPipes rfl
  · exact c9_noop_idempotent.2.1 Unit blockedOracle true () emptyPipes 1 ()
      emptyPipes hstable rfl
  · exact c9_noop_idempotent.2.2 Unit blockedOracle true emptyPipes 1
      emptyPipes rfl
